import Mathlib

/-!
Verification of the flograph repository: a shallow embedding in Lean 4 of the
crawler (src/download_util.py), the persistent store helpers (src/db.py) and
the Glicko-2 replay engine (src/rating.py), together with theorems settling
the specification claims.  Each definition is translated from the source file
and function named in its doc comment.  The crawler and store layers are
fully computable; the rating layer is real-valued, mirroring the float
arithmetic of the source with exact reals, and its two source `while` loops
are indexed by an explicit fuel parameter.
-/

namespace Rating

/-- Source src/rating.py, regex `date_regex` helper: consume the maximal run
of ASCII digits at the head of the list, returning the run and the rest. -/
def takeDigits : List Char → List Char × List Char
  | [] => ([], [])
  | c :: cs =>
    if c.isDigit then
      let p := takeDigits cs
      (c :: p.1, p.2)
    else ([], c :: cs)

/-- Fuel-indexed scanner reproducing `re.findall` for the pattern
`\d+(?:\.\d+)?` of src/rating.py line 26: leftmost non-overlapping maximal
matches of an integer optionally followed by a dot and more digits. -/
def findTokensAux : Nat → List Char → List (List Char)
  | 0, _ => []
  | _, [] => []
  | fuel + 1, c :: cs =>
    if c.isDigit then
      let d1 := c :: (takeDigits cs).1
      let r1 := (takeDigits cs).2
      match r1 with
      | '.' :: r2 =>
        match r2 with
        | x :: _ =>
          if x.isDigit then
            (d1 ++ '.' :: (takeDigits r2).1) :: findTokensAux fuel (takeDigits r2).2
          else
            d1 :: findTokensAux fuel r1
        | [] => d1 :: findTokensAux fuel r1
      | _ => d1 :: findTokensAux fuel r1
    else
      findTokensAux fuel cs

/-- All matches of `date_regex` in the character list.  Every recursive step
of the scanner strictly shortens the list, so `l.length` fuel is enough. -/
def findTokens (l : List Char) : List (List Char) := findTokensAux l.length l

/-- Body of the token loop of `normalize_weight_label`
(src/rating.py lines 131-140): `none` models the `continue` branch. -/
def normalizeToken (t : List Char) : Option (List Char) :=
  if (t.filter (· ≠ '.')).length < 2 then none
  else if '.' ∈ t then
    let c0 := t.dropWhile (· = '0')
    let c1 := match c0 with
      | '.' :: _ => '0' :: c0
      | _ => c0
    some (if c1 = [] then ['0'] else c1)
  else
    let s := t.dropWhile (· = '0')
    some (if s = [] then ['0'] else s)

/-- Source src/rating.py, `normalize_weight_label` (lines 127-141): extract
the first numeric token with at least two digits; `str(int(token))` is the
leading-zero strip of a pure digit string, and the fractional branch strips
leading zeros, restoring a single `0` before a leading dot. -/
def normalize_weight_label (raw_label : Option String) : Option String :=
  match raw_label with
  | none => none
  | some s =>
    if s = "" then none
    else
      ((findTokens s.toList).findSome? normalizeToken).map fun cs =>
        String.mk cs

end Rating

namespace Store

/-- Row of the `crawl_seen` table (src/db.py): wrestler key, minimum
discovery depth, and whether `processed_at` is set. -/
structure SeenRow where
  wrestler_id : String
  depth : Nat
  processed : Bool
  deriving DecidableEq

/-- Row of the `matches` table (src/db.py lines 278-300). -/
structure MatchRow where
  id : String
  topWrestler_id : Option String
  bottomWrestler_id : Option String
  winner_id : Option String
  weightClass : Option String
  event_id : Option String
  date : Option String
  result : Option String
  winType : Option String
  deriving DecidableEq

/-- The persistent store of src/db.py.  The `crawl_queue` table is kept in
enqueue-time order; `fetched` keeps only the ids (the stored date plays no
role in any claim). -/
structure Db where
  crawlerState : Option (String × Nat)
  queue : List (String × Nat)
  seen : List SeenRow
  wrestlers : List (String × String × Option String)
  teams : List (String × String)
  events : List (String × String × Option String × String)
  match_rows : List MatchRow
  fetched : List String
  deriving DecidableEq

def emptyDb : Db := ⟨none, [], [], [], [], [], [], []⟩

/-- Source src/db.py `mark_fetch`: upsert of the fetch mark (the date column
is not modelled, so a re-mark is a no-op). -/
def mark_fetch (id : String) (db : Db) : Db :=
  if id ∈ db.fetched then db else { db with fetched := db.fetched ++ [id] }

/-- Source src/db.py `create_wrestler`: insert only if the id is absent. -/
def create_wrestler (id name : String) (team_id : Option String) (db : Db) : Db :=
  if db.wrestlers.any (fun w => w.1 = id) then db
  else { db with wrestlers := db.wrestlers ++ [(id, name, team_id)] }

/-- Source src/db.py `create_team`: insert-if-absent, dropped when the id or
the name is null (lines 205-207). -/
def create_team (id name : Option String) (db : Db) : Db :=
  match id, name with
  | some i, some n =>
    if db.teams.any (fun t => t.1 = i) then db
    else { db with teams := db.teams ++ [(i, n)] }
  | _, _ => db

/-- Source src/db.py `create_event`: insert only if the id is absent. -/
def create_event (id name : String) (date : Option String) (location : String)
    (db : Db) : Db :=
  if db.events.any (fun e => e.1 = id) then db
  else { db with events := db.events ++ [(id, name, date, location)] }

/-- Source src/db.py `create_match` (lines 278-300): dropped when a
participant is null, otherwise insert only if the match id is absent (the
`matches` table is the `match_rows` field). -/
def create_match (row : MatchRow) (db : Db) : Db :=
  if row.topWrestler_id = none ∨ row.bottomWrestler_id = none then db
  else if db.match_rows.any (fun m => m.id = row.id) then db
  else { db with match_rows := db.match_rows ++ [row] }

/-- Source src/db.py `upsert_crawler_state`: the singleton row. -/
def upsert_crawler_state (seed : String) (depth : Nat) (db : Db) : Db :=
  { db with crawlerState := some (seed, depth) }

/-- Source src/db.py `clear_crawler_state`: truncates state, queue, seen. -/
def clear_crawler_state (db : Db) : Db :=
  { db with crawlerState := none, queue := [], seen := [] }

/-- Source src/db.py `enqueue_wrestler`: upsert that refreshes
`enqueued_at`, so the row moves to the end of the enqueue-time order. -/
def enqueue_wrestler (id : String) (depth : Nat) (db : Db) : Db :=
  { db with queue := db.queue.filter (fun q => q.1 ≠ id) ++ [(id, depth)] }

/-- Source src/db.py `remove_from_queue`. -/
def remove_from_queue (id : String) (db : Db) : Db :=
  { db with queue := db.queue.filter (fun q => q.1 ≠ id) }

/-- Source src/db.py `clear_queue`. -/
def clear_queue (db : Db) : Db := { db with queue := [] }

/-- Source src/db.py `get_queue_items`: prunes rows with an empty wrestler
key, then returns the remaining rows in enqueue-time order. -/
def get_queue_items (db : Db) : List (String × Nat) × Db :=
  let q := db.queue.filter (fun r => r.1 ≠ "")
  (q, { db with queue := q })

/-- Effect of src/db.py `record_seen_wrestler` on the `crawl_seen` rows:
`ON CONFLICT ... SET depth = MIN(depth, excluded.depth)`.  The table keys
rows by `wrestler_id` (primary key), so the upsert updates the row with the
id when it exists and appends a fresh unprocessed row otherwise. -/
def recordSeenRows (id : String) (depth : Nat) : List SeenRow → List SeenRow
  | [] => [⟨id, depth, false⟩]
  | r :: t =>
    if r.wrestler_id = id then { r with depth := min r.depth depth } :: t
    else r :: recordSeenRows id depth t

/-- Source src/db.py `record_seen_wrestler` (lines 475-487). -/
def record_seen_wrestler (id : String) (depth : Nat) (db : Db) : Db :=
  { db with seen := recordSeenRows id depth db.seen }

/-- Source src/db.py `get_seen_wrestlers`. -/
def get_seen_wrestlers (db : Db) : List (String × Nat) :=
  db.seen.map fun r => (r.wrestler_id, r.depth)

/-- Source src/db.py `mark_wrestler_processed`: stamps `processed_at` on the
row when it exists; a missing row is left missing. -/
def mark_wrestler_processed (id : String) (db : Db) : Db :=
  { db with seen := db.seen.map fun r =>
      if r.wrestler_id = id then { r with processed := true } else r }

/-- Source src/db.py `get_processed_wrestlers`. -/
def get_processed_wrestlers (db : Db) : List String :=
  (db.seen.filter (fun r => r.processed)).map fun r => r.wrestler_id

/-- Stable insertion into a depth-sorted list: a row goes before the first
row of strictly larger depth, after rows of equal depth. -/
def insertByDepth (x : String × Nat) : List (String × Nat) → List (String × Nat)
  | [] => [x]
  | y :: t => if x.2 ≤ y.2 then x :: y :: t else y :: insertByDepth x t

/-- Stable sort by depth ascending (the `ORDER BY depth ASC` of the
query). -/
def sortByDepth : List (String × Nat) → List (String × Nat)
  | [] => []
  | x :: t => insertByDepth x (sortByDepth t)

/-- Source src/db.py `get_unprocessed_wrestlers`: unprocessed seen rows with
depth at most the bound, ordered by depth ascending. -/
def get_unprocessed_wrestlers (max_depth : Option Nat) (db : Db) : List (String × Nat) :=
  sortByDepth ((db.seen.filter fun r =>
    !r.processed && (match max_depth with
                     | some m => decide (r.depth ≤ m)
                     | none => true)).map fun r => (r.wrestler_id, r.depth))

/-- Stored depth of a seen row, read off the first row with the id. -/
def seenDepthRows (l : List SeenRow) (id : String) : Option Nat :=
  (l.find? (fun r => r.wrestler_id = id)).map (·.depth)

/-- Stored depth of the seen row of a wrestler. -/
def seenDepth (db : Db) (id : String) : Option Nat := seenDepthRows db.seen id

end Store

namespace Crawler

/-!
Model of src/download_util.py.  A JSON:API page is a list of bout objects
plus a list of included objects; attribute dictionaries are records with one
optional field per key the ingestor reads.  Timestamp parsing is abstracted
by a parameter `parseIso : String → Option Int` returning the calendar day
of the parsed timestamp (the code only ever compares the `.date()` of parsed
values and stores the raw string).  The two spots where the code indexes a
required key directly (`winType`, `winnerWrestlerId`) are totalised with an
optional field; a page missing them would raise in Python and decides no
claim.
-/

/-- Attribute dictionary of an included object or bout. -/
structure Attrs where
  winType : Option String := none
  topWrestlerId : Option String := none
  bottomWrestlerId : Option String := none
  weightClassId : Option String := none
  eventId : Option String := none
  goDateTime : Option String := none
  startDateTime : Option String := none
  endDateTime : Option String := none
  result : Option String := none
  winnerWrestlerId : Option String := none
  identityPersonId : Option String := none
  firstName : Option String := none
  lastName : Option String := none
  teamId : Option String := none
  name : Option String := none
  identityTeamId : Option String := none
  locationName : Option String := none
  deriving DecidableEq

/-- Entry of the `included` array: document id, JSON:API type, attributes. -/
structure IncludedObj where
  id : String
  type : String
  attributes : Attrs
  deriving DecidableEq

/-- Entry of the `data` array (a bout). -/
structure MatchObj where
  id : String
  attributes : Attrs
  deriving DecidableEq

/-- One JSON:API page. -/
structure Page where
  data : List MatchObj := []
  included : List IncludedObj := []
  deriving DecidableEq

/-- The `lookup` dictionary built in `update_db` (line 131): keyed by
document id, later objects overriding earlier ones. -/
def lookupIncluded (objs : List IncludedObj) (i : String) : Option IncludedObj :=
  objs.foldl (fun acc o => if o.id = i then some o else acc) none

/-- Source src/download_util.py `get_lookup` with default `None`. -/
def get_lookup (id : Option String) (objs : List IncludedObj) : Option IncludedObj :=
  match id with
  | none => none
  | some i => lookupIncluded objs i

/-- Source src/download_util.py `_normalize_weight_filters`: trim and
lowercase the non-blank entries, `None` when nothing remains. -/
def normalize_weight_filters (ws : Option (List String)) : Option (List String) :=
  match ws with
  | none => none
  | some l =>
    if l = [] then none
    else
      let n := ((l.filter fun w => w.trim ≠ "").map fun w => w.trim.toLower).foldl
        (fun acc x => if x ∈ acc then acc else acc ++ [x]) []
      if n = [] then none else some n

/-- Source src/download_util.py `_normalize_date_bound`: blank or
unparseable strings yield no bound, otherwise the calendar day. -/
def normalize_date_bound (parseIso : String → Option Int) (v : Option String) :
    Option Int :=
  match v with
  | none => none
  | some s => if s = "" then none else parseIso s

/-- Source src/download_util.py `_resolve_match_timestamp` (lines 81-101):
try `goDateTime`, `startDateTime`, `endDateTime` on the bout, then the
`startDateTime`/`endDateTime` of the referenced event among the included
objects (any event at all when the bout carries no non-blank event id);
returns the parsed day and the raw string. -/
def resolve_match_timestamp (parseIso : String → Option Int) (page : Page)
    (m : MatchObj) : Option Int × Option String :=
  let tryRaw := fun (raw : Option String) =>
    (raw.bind parseIso).map fun d => (d, raw)
  match [m.attributes.goDateTime, m.attributes.startDateTime,
         m.attributes.endDateTime].findSome? tryRaw with
  | some p => (some p.1, p.2)
  | none =>
    let eventId := m.attributes.eventId
    match page.included.findSome? (fun obj =>
      if obj.type ≠ "event" then none
      else if (match eventId with
               | some e => e ≠ "" && obj.id ≠ e
               | none => false) then none
      else [obj.attributes.startDateTime, obj.attributes.endDateTime].findSome? tryRaw)
    with
    | some p => (some p.1, p.2)
    | none => (none, none)

/-- Source src/download_util.py `_extract_match_date`. -/
def extract_match_date (parseIso : String → Option Int) (page : Page)
    (m : MatchObj) : Option Int :=
  (resolve_match_timestamp parseIso page m).1

/-- Source src/download_util.py `_is_date_allowed` (lines 109-116). -/
def is_date_allowed (match_date start_date end_date : Option Int) : Bool :=
  match match_date with
  | none => start_date.isNone && end_date.isNone
  | some d =>
    if start_date.any fun sb => decide (d < sb) then false
    else if end_date.any fun eb => decide (eb < d) then false
    else true

/-- The modelled-from-spec date acceptance: a match with no resolvable
timestamp is kept exactly when neither bound was supplied; a match with
resolved day `t` is kept exactly when `t` is inside the inclusive bounds. -/
def dateAllowedSpec (match_date start_date end_date : Option Int) : Bool :=
  match match_date with
  | none => start_date.isNone && end_date.isNone
  | some t =>
    (match start_date with
     | none => true
     | some sb => decide (sb ≤ t)) &&
    (match end_date with
     | none => true
     | some eb => decide (t ≤ eb))

/-- First pass of `update_db` over `included` (lines 130-135): create teams
and events; events take their date from `startDateTime`, falling back to
`endDateTime`. -/
def ingestIncludedOne (d : Store.Db) (obj : IncludedObj) : Store.Db :=
  if obj.type = "team" then
    Store.create_team obj.attributes.identityTeamId obj.attributes.name d
  else if obj.type = "event" then
    Store.create_event obj.id (obj.attributes.name.getD "")
      (match obj.attributes.startDateTime with
       | some s => some s
       | none => obj.attributes.endDateTime)
      (obj.attributes.locationName.getD "") d
  else d

/-- Second pass of `update_db` over `included` (lines 137-143): create
wrestlers, resolving the team through the page lookup. -/
def ingestIncludedTwo (page : Page) (d : Store.Db) (obj : IncludedObj) : Store.Db :=
  if obj.type = "wrestler" then
    Store.create_wrestler (obj.attributes.identityPersonId.getD "")
      ((obj.attributes.firstName.getD "") ++ " " ++ (obj.attributes.lastName.getD ""))
      ((get_lookup obj.attributes.teamId page.included).bind
        fun t => t.attributes.identityTeamId) d
  else d

/-- Weight-class name of a bout, resolved through the page lookup
(lines 161-162). -/
def weightNameOf (page : Page) (m : MatchObj) : Option String :=
  match m.attributes.weightClassId with
  | none => none
  | some i => (lookupIncluded page.included i).bind fun o => o.attributes.name

/-- Opponent of `this_id` in a bout (line 170): the top participant unless
it is the wrestler being expanded. -/
def opponentOf (this_id topPid bottomPid : String) : String :=
  if topPid ≠ this_id then topPid else bottomPid

/-- Set insertion into the opponent list (line 171). -/
def addOpponent (l : List String) (o : String) : List String :=
  if o ∈ l then l else l ++ [o]

/-- Winner resolution (line 173): compare the winner reference against the
document id of the top wrestler. -/
def winnerOf (m : MatchObj) (top bottom : IncludedObj) : IncludedObj :=
  if m.attributes.winnerWrestlerId = some top.id then top else bottom

/-- Body of the bout loop of `update_db` (lines 145-189): all the skip
conditions, the opponent extraction and the match insert, threading the
accumulated opponent set and the store. -/
def ingestMatch (parseIso : String → Option Int) (page : Page) (this_id : String)
    (allowed_weights : Option (List String)) (start_date end_date : Option Int)
    (acc : List String × Store.Db) (m : MatchObj) : List String × Store.Db :=
  if m.attributes.winType = some "BYE" then acc
  else
    match get_lookup m.attributes.topWrestlerId page.included,
          get_lookup m.attributes.bottomWrestlerId page.included with
    | some top, some bottom =>
      match top.attributes.identityPersonId, bottom.attributes.identityPersonId with
      | some topPid, some bottomPid =>
        match weightNameOf page m with
        | some wname =>
          if wname = "" then acc
          else if (match allowed_weights with
                   | some l => decide (wname.toLower ∉ l)
                   | none => false) then acc
          else if ! is_date_allowed (extract_match_date parseIso page m)
              start_date end_date then acc
          else
            match (winnerOf m top bottom).attributes.identityPersonId with
            | some winnerPid =>
              (addOpponent acc.1 (opponentOf this_id topPid bottomPid),
                Store.create_match
                  { id := m.id, topWrestler_id := some topPid,
                    bottomWrestler_id := some bottomPid, winner_id := some winnerPid,
                    weightClass := some wname, event_id := m.attributes.eventId,
                    date := (resolve_match_timestamp parseIso page m).2,
                    result := m.attributes.result,
                    winType := m.attributes.winType } acc.2)
            | none => (addOpponent acc.1 (opponentOf this_id topPid bottomPid), acc.2)
        | none => acc
      | _, _ => acc
    | _, _ => acc

/-- The Match row a bout inserts, `none` when one of the skip conditions of
the bout loop fires: the same decision tree as `ingestMatch`, read off as a
pure function of the page. -/
def matchRowOf (parseIso : String → Option Int) (page : Page) (this_id : String)
    (allowed_weights : Option (List String)) (start_date end_date : Option Int)
    (m : MatchObj) : Option Store.MatchRow :=
  if m.attributes.winType = some "BYE" then none
  else
    match get_lookup m.attributes.topWrestlerId page.included,
          get_lookup m.attributes.bottomWrestlerId page.included with
    | some top, some bottom =>
      match top.attributes.identityPersonId, bottom.attributes.identityPersonId with
      | some topPid, some bottomPid =>
        match weightNameOf page m with
        | some wname =>
          if wname = "" then none
          else if (match allowed_weights with
                   | some l => decide (wname.toLower ∉ l)
                   | none => false) then none
          else if ! is_date_allowed (extract_match_date parseIso page m)
              start_date end_date then none
          else
            match (winnerOf m top bottom).attributes.identityPersonId with
            | some winnerPid =>
              some { id := m.id, topWrestler_id := some topPid,
                     bottomWrestler_id := some bottomPid, winner_id := some winnerPid,
                     weightClass := some wname, event_id := m.attributes.eventId,
                     date := (resolve_match_timestamp parseIso page m).2,
                     result := m.attributes.result,
                     winType := m.attributes.winType }
            | none => none
        | none => none
      | _, _ => none
    | _, _ => none

/-- The opponent a bout contributes to the returned set, `none` when the
bout is skipped before the opponent is recorded (the winner check comes
after, so a bout with an unresolvable winner still contributes). -/
def oppAddOf (parseIso : String → Option Int) (page : Page) (this_id : String)
    (allowed_weights : Option (List String)) (start_date end_date : Option Int)
    (m : MatchObj) : Option String :=
  if m.attributes.winType = some "BYE" then none
  else
    match get_lookup m.attributes.topWrestlerId page.included,
          get_lookup m.attributes.bottomWrestlerId page.included with
    | some top, some bottom =>
      match top.attributes.identityPersonId, bottom.attributes.identityPersonId with
      | some topPid, some bottomPid =>
        match weightNameOf page m with
        | some wname =>
          if wname = "" then none
          else if (match allowed_weights with
                   | some l => decide (wname.toLower ∉ l)
                   | none => false) then none
          else if ! is_date_allowed (extract_match_date parseIso page m)
              start_date end_date then none
          else
            match (winnerOf m top bottom).attributes.identityPersonId with
            | some _ => some (opponentOf this_id topPid bottomPid)
            | none => some (opponentOf this_id topPid bottomPid)
        | none => none
      | _, _ => none
    | _, _ => none

/-- Source src/download_util.py `update_db` (lines 119-192): the three
passes over a page; returns the opponent ids (a set, in insertion order)
and the updated store. -/
def update_db (parseIso : String → Option Int) (page : Page) (this_id : String)
    (allowed_weights : Option (List String)) (start_date end_date : Option Int)
    (db : Store.Db) : List String × Store.Db :=
  let db := page.included.foldl ingestIncludedOne db
  let db := page.included.foldl (ingestIncludedTwo page) db
  let r := page.data.foldl
    (ingestMatch parseIso page this_id allowed_weights start_date end_date) ([], db)
  (r.1, Store.mark_fetch this_id r.2)

/-- One follow-up page of `download_matches`: ingest it and union the
returned opponents into the accumulated set (line 239). -/
def downloadStep (parseIso : String → Option Int) (id : String)
    (allowed_weights : Option (List String)) (start_bound end_bound : Option Int)
    (acc : List String × Store.Db) (p : Page) : List String × Store.Db :=
  let r := update_db parseIso p id allowed_weights start_bound end_bound acc.2
  (acc.1 ++ r.1.filter (fun o => o ∉ acc.1), r.2)

/-- Source src/download_util.py `download_matches` (lines 194-242), with the
page sequence of a wrestler supplied by the oracle `pages` (first page plus
follow-ups, mirroring the unconditional first GET and the `links.next`
walk); returns the union of the per-page opponent sets. -/
def download_matches (pages : String → Page × List Page)
    (parseIso : String → Option Int) (id : String)
    (allowed_weights : Option (List String))
    (start_date end_date : Option String) (db : Store.Db) :
    List String × Store.Db :=
  let start_bound := normalize_date_bound parseIso start_date
  let end_bound := normalize_date_bound parseIso end_date
  let first := update_db parseIso (pages id).1 id allowed_weights start_bound end_bound db
  (pages id).2.foldl (downloadStep parseIso id allowed_weights start_bound end_bound)
    first

/-- In-memory crawl state right before and during the main loop of `crawl`:
the deque, the seen and processed sets, the depth map, the fetch log (one
entry per wrestler handed to the Fetcher, in order) and the store. -/
structure CrawlMem where
  queue : List (String × Nat)
  seen : List String
  depths : List (String × Nat)
  processed : List String
  fetchLog : List String
  db : Store.Db
  deriving DecidableEq

/-- Return value of `crawl` (line 386-390). -/
structure CrawlResult where
  seen : List String
  depths : List (String × Nat)
  fetched : List String
  fetchLog : List String
  db : Store.Db
  deriving DecidableEq

/-- Lines 257-320 of src/download_util.py `crawl`: frontier load, seed
discard, the depth-upgrade block, `ensure_seed_front`, and the replenish
block, which is unreachable because `ensure_seed_front` leaves the seed at
the front.  The flags from the stored-state comparison are arguments. -/
def setupRest (seed : String) (depth previousDepth : Nat)
    (seedChanged depthUpgraded : Bool) (db : Store.Db) : CrawlMem :=
  let db := if seedChanged then Store.clear_queue db else db
  let qi := Store.get_queue_items db
  let queue := qi.1
  let db := qi.2
  let queuedIds := (queue.map fun x => x.1).foldl
    (fun acc x => if x ∈ acc then acc else acc ++ [x]) []
  let seenRows := Store.get_seen_wrestlers db
  let seen := (seenRows.map fun x => x.1).foldl
    (fun acc x => if x ∈ acc then acc else acc ++ [x]) []
  let depths := seenRows
  let processed := (Store.get_processed_wrestlers db).foldl
    (fun acc x => if x ∈ acc then acc else acc ++ [x]) []
  -- always refetch the seed (lines 268-272)
  let seen := seen.filter fun x => x ≠ seed
  let depths := depths.filter fun x => x.1 ≠ seed
  let processed := processed.filter fun x => x ≠ seed
  let queuedIds := queuedIds.filter fun x => x ≠ seed
  -- depth-upgrade block (lines 282-294)
  let upg :=
    if depthUpgraded then
      (Store.get_unprocessed_wrestlers (some depth) db).foldl
        (fun (acc : List (String × Nat) × List String × Store.Db) wd =>
          if wd.2 < previousDepth then acc
          else if wd.1 ∈ processed ∨ wd.1 ∈ acc.2.1 then acc
          else (acc.1 ++ [wd], acc.2.1 ++ [wd.1],
            Store.enqueue_wrestler wd.1 wd.2 acc.2.2))
        ([], queuedIds, db)
    else ([], queuedIds, db)
  let queue := upg.1 ++ queue
  let queuedIds := upg.2.1
  let db := upg.2.2
  -- a changed seed clears the in-memory frontier (lines 296-298)
  let queue := if seedChanged then [] else queue
  let queuedIds := if seedChanged then [] else queuedIds
  -- ensure_seed_front (lines 274-279, called at line 300)
  let queue := (seed, 0) :: queue.filter fun x => x.1 ≠ seed
  let db := Store.enqueue_wrestler seed 0 db
  let queuedIds := if seed ∈ queuedIds then queuedIds else queuedIds ++ [seed]
  -- replenish block (lines 302-319); unreachable since the seed is in front
  if queue.isEmpty then
    let rep := (Store.get_unprocessed_wrestlers (some depth) db).foldl
      (fun (acc : List (String × Nat) × List String × Store.Db) wd =>
        if wd.1 ∈ processed ∨ wd.1 ∈ acc.2.1 then acc
        else (acc.1 ++ [wd], acc.2.1 ++ [wd.1],
          Store.enqueue_wrestler wd.1 wd.2 acc.2.2))
      ([], queuedIds, db)
    if rep.1 ≠ [] then
      ⟨queue ++ rep.1, seen, depths, processed, [], rep.2.2⟩
    else
      let seeded := seed ∈ seen
      let seen := if seeded then seen else seen ++ [seed]
      let depths := if seeded then depths else depths ++ [(seed, 0)]
      let db := if seeded then rep.2.2 else Store.record_seen_wrestler seed 0 rep.2.2
      ⟨queue ++ [(seed, 0)], seen, depths, processed, [],
        Store.enqueue_wrestler seed 0 db⟩
  else
    ⟨queue, seen, depths, processed, [], db⟩

/-- Source src/download_util.py `crawl`, lines 245-320: everything before
the main loop.  The reset, the stored-state comparison and the state upsert
happen here; `setupRest` carries out the rest with the comparison flags
passed explicitly. -/
def crawlSetup (seed : String) (depth : Nat) (reset : Bool) (db0 : Store.Db) :
    CrawlMem :=
  let db := if reset then Store.clear_crawler_state db0 else db0
  let state := db.crawlerState
  let previousDepth := match state with
    | some s => s.2
    | none => 0
  let seedChanged : Bool := match state with
    | some s => decide (s.1 ≠ seed)
    | none => false
  let depthUpgraded : Bool := decide (previousDepth < depth)
  setupRest seed depth previousDepth seedChanged depthUpgraded
    (Store.upsert_crawler_state seed depth db)

/-- Body of the opponent loop of `crawl` (lines 372-381): an opponent not
yet seen is recorded at the parent depth plus one and, when within the
depth limit, appended to the back of the deque and enqueued in the
store. -/
def oppStep (depth d : Nat) (acc : CrawlMem) (o : String) : CrawlMem :=
  if o ∈ acc.seen then acc
  else
    let nd := d + 1
    let acc1 : CrawlMem := { acc with
      seen := acc.seen ++ [o],
      depths := acc.depths ++ [(o, nd)],
      db := Store.record_seen_wrestler o nd acc.db }
    if nd ≤ depth then
      { acc1 with
        queue := acc1.queue ++ [(o, nd)],
        db := Store.enqueue_wrestler o nd acc1.db }
    else acc1

/-- One fetch iteration of the main loop of `crawl` (lines 367-384): fetch
the front wrestler, mark it processed, run the opponent loop, then pop it
from the deque and the persisted queue. -/
def fetchStep (pages : String → Page × List Page) (parseIso : String → Option Int)
    (depth : Nat) (allowedF : Option (List String))
    (start_date end_date : Option String) (w : String) (d : Nat)
    (rest : List (String × Nat)) (m : CrawlMem) : CrawlMem :=
  let dm := download_matches pages parseIso w allowedF start_date end_date m.db
  let m1 : CrawlMem := { m with
    queue := rest,
    processed := m.processed ++ [w],
    fetchLog := m.fetchLog ++ [w],
    db := Store.mark_wrestler_processed w dm.2 }
  let m2 := dm.1.foldl (oppStep depth d) m1
  { m2 with db := Store.remove_from_queue w m2.db }

/-- Source src/download_util.py `crawl`, main loop (lines 346-384), indexed
by fuel; `none` models fuel exhaustion with a non-empty deque. -/
def crawlLoop (pages : String → Page × List Page) (parseIso : String → Option Int)
    (depth : Nat) (allowedF : Option (List String))
    (start_date end_date : Option String) :
    Nat → CrawlMem → Option CrawlMem
  | 0, m => if m.queue.isEmpty then some m else none
  | fuel + 1, m =>
    match m.queue with
    | [] => some m
    | (w, d) :: rest =>
      if depth ≤ d then
        crawlLoop pages parseIso depth allowedF start_date end_date fuel
          { m with queue := rest, db := Store.remove_from_queue w m.db }
      else if w ∈ m.processed then
        crawlLoop pages parseIso depth allowedF start_date end_date fuel
          { m with queue := rest, db := Store.remove_from_queue w m.db }
      else
        crawlLoop pages parseIso depth allowedF start_date end_date fuel
          (fetchStep pages parseIso depth allowedF start_date end_date w d rest m)

/-- Source src/download_util.py `crawl` (lines 244-390). -/
def crawl (pages : String → Page × List Page) (parseIso : String → Option Int)
    (seed : String) (depth : Nat) (reset : Bool)
    (allowed_weights : Option (List String))
    (start_date end_date : Option String) (fuel : Nat) (db0 : Store.Db) :
    Option CrawlResult :=
  (crawlLoop pages parseIso depth (normalize_weight_filters allowed_weights)
      start_date end_date fuel (crawlSetup seed depth reset db0)).map
    fun m => ⟨m.seen, m.depths, m.processed, m.fetchLog, m.db⟩

/-- Number of HTTP page fetches performed by a crawl with the given fetch
log: one unconditional GET per wrestler plus one per follow-up page. -/
def pageCalls (pages : String → Page × List Page) (log : List String) : Nat :=
  (log.map fun w => 1 + (pages w).2.length).sum

/-- Effect of `create_match` on the matches table alone. -/
def insMatchRows (row : Store.MatchRow) (ms : List Store.MatchRow) :
    List Store.MatchRow :=
  if row.topWrestler_id = none ∨ row.bottomWrestler_id = none then ms
  else if ms.any (fun m => m.id = row.id) then ms
  else ms ++ [row]

/-- All pages the Fetcher yields for a wrestler. -/
def allPages (pages : String → Page × List Page) (id : String) : List Page :=
  (pages id).1 :: (pages id).2

/-- All Match rows a full `download_matches` call for a wrestler attempts to
insert, in order. -/
def attemptsOf (pages : String → Page × List Page) (parseIso : String → Option Int)
    (id : String) (aw : Option (List String)) (start_date end_date : Option String) :
    List Store.MatchRow :=
  (allPages pages id).flatMap fun p =>
    p.data.filterMap (matchRowOf parseIso p id aw
      (normalize_date_bound parseIso start_date)
      (normalize_date_bound parseIso end_date))

/-- The ids of the matches table. -/
def matchIds (ms : List Store.MatchRow) : List String := ms.map fun r => r.id

/-- A seen row for the wrestler exists with depth at most `k`. -/
def SeenLE (db : Store.Db) (o : String) (k : Nat) : Prop :=
  ∃ row ∈ db.seen, row.wrestler_id = o ∧ row.depth ≤ k

/-- The opponent set a full `download_matches` call for a wrestler returns;
a pure function of the page oracle. -/
def oppsOf (pages : String → Page × List Page) (parseIso : String → Option Int)
    (id : String) (aw : Option (List String)) (start_date end_date : Option String) :
    List String :=
  (download_matches pages parseIso id aw start_date end_date Store.emptyDb).1

/-- Fixture: the top wrestler document of the counterexample bout. -/
def c1Top : IncludedObj :=
  ⟨"dt", "wrestler",
   { identityPersonId := some "a", firstName := some "A", lastName := some "A" }⟩

/-- Fixture: the bottom wrestler document of the counterexample bout. -/
def c1Bot : IncludedObj :=
  ⟨"dbot", "wrestler",
   { identityPersonId := some "b", firstName := some "B", lastName := some "B" }⟩

/-- Fixture: the weight-class document of the counterexample bout. -/
def c1WC : IncludedObj := ⟨"wc", "weightClass", { name := some "126" }⟩

/-- Fixture: one bout between the two wrestlers, won by the top one. -/
def c1Bout : MatchObj :=
  ⟨"m1",
   { winType := some "DEC", topWrestlerId := some "dt",
     bottomWrestlerId := some "dbot", weightClassId := some "wc",
     winnerWrestlerId := some "dt", result := some "W" }⟩

/-- Fixture: the single page every wrestler serves. -/
def c1Page : Page := ⟨[c1Bout], [c1Top, c1Bot, c1WC]⟩

/-- Fixture page oracle: every wrestler serves the one bout page with no
follow-up pages. -/
def c1Pages : String → Page × List Page := fun _ => (c1Page, [])

/-- Fixture timestamp parser: nothing parses. -/
def c1Parse : String → Option Int := fun _ => none

/-- Result of the first crawl of the fixture (seed "a", depth 2). -/
def c1R1 : CrawlResult :=
  (crawl c1Pages c1Parse "a" 2 false none none none 9 Store.emptyDb).getD
    ⟨[], [], [], [], Store.emptyDb⟩

/-- Result of the second crawl of the fixture, resumed on the first
crawl's store. -/
def c1R2 : CrawlResult :=
  (crawl c1Pages c1Parse "a" 2 false none none none 9 c1R1.db).getD
    ⟨[], [], [], [], Store.emptyDb⟩

end Crawler

namespace Rating

/-!
Model of the Glicko-2 replay of src/rating.py over the exact reals: floats
become real numbers, the per-wrestler state dictionaries become functions
`String → Option PState`, and the two while loops of `update_volatility`
are fuel-indexed (the fuel is threaded through every caller).
-/

noncomputable section

def RATING_SCALE : ℝ := 173.7178

def DEFAULT_RATING : ℝ := 1500

def DEFAULT_RD : ℝ := 350

def DEFAULT_VOLATILITY : ℝ := 0.06

def MAX_RD : ℝ := 350

def EPSILON : ℝ := 1e-6

/-- One tracked (wrestler, weight) state (the dict of `ensure_state`). -/
structure PState where
  rating : ℝ
  rd : ℝ
  volatility : ℝ
  last_period_index : Nat
  last_competed_period : Option Nat
  matches_played : Nat

/-- The fresh state `ensure_state` installs (lines 262-269). -/
def freshState (period_idx : Nat) : PState :=
  ⟨DEFAULT_RATING, DEFAULT_RD, DEFAULT_VOLATILITY, period_idx, none, 0⟩

/-- The state `ensure_state` returns for a wrestler. -/
def stateOf (s : String → Option PState) (id : String) (period_idx : Nat) :
    PState :=
  (s id).getD (freshState period_idx)

/-- Source src/rating.py `ensure_state` (lines 260-270), as a map update. -/
def ensure_state (s : String → Option PState) (id : String) (period_idx : Nat) :
    String → Option PState :=
  fun x => if x = id then some (stateOf s id period_idx) else s x

/-- Source src/rating.py `apply_inactivity` (lines 273-283). -/
def apply_inactivity (st : PState) (target_period : Nat) : PState :=
  if target_period ≤ st.last_period_index then st
  else
    { st with
      rd := min (Real.sqrt ((st.rd / RATING_SCALE) * (st.rd / RATING_SCALE) +
        ((target_period - st.last_period_index : Nat) : ℝ) * st.volatility *
          st.volatility) * RATING_SCALE) MAX_RD,
      last_period_index := target_period }

/-- Snapshot of a state (source `build_snapshot`, lines 285-292). -/
structure Snapshot where
  rating : ℝ
  rd : ℝ
  volatility : ℝ
  mu : ℝ
  phi : ℝ

/-- Source src/rating.py `build_snapshot`. -/
def build_snapshot (st : PState) : Snapshot :=
  ⟨st.rating, st.rd, st.volatility, (st.rating - DEFAULT_RATING) / RATING_SCALE,
   st.rd / RATING_SCALE⟩

/-- Source src/rating.py `glicko_g` (lines 295-296). -/
def glicko_g (phi : ℝ) : ℝ :=
  1 / Real.sqrt (1 + (3 * phi * phi) / (Real.pi * Real.pi))

/-- Source src/rating.py `glicko_E` (lines 299-300). -/
def glicko_E (mu mu_j phi_j : ℝ) : ℝ :=
  1 / (1 + Real.exp (-(glicko_g phi_j) * (mu - mu_j)))

/-- The inner function `f` of `update_volatility` (lines 306-310), with
`a = ln σ²` passed in. -/
def uvF (phi v a tau delta : ℝ) (x : ℝ) : ℝ :=
  Real.exp x * (delta * delta - phi * phi - v - Real.exp x) /
      (2 * (phi * phi + v + Real.exp x) ^ 2) -
    (x - a) / (tau * tau)

/-- The bracket walk of `update_volatility` (lines 316-318), fuel-indexed:
step `k` up while `f (a - k τ) < 0`. -/
def walkK (f : ℝ → ℝ) (a tau : ℝ) : Nat → Nat → Nat
  | 0, k => k
  | fuel + 1, k => if f (a - k * tau) < 0 then walkK f a tau fuel (k + 1) else k

/-- One Illinois step on the root-find state `(A, B, fA, fB)`
(lines 325-333). -/
def illinoisStep (f : ℝ → ℝ) (s : ℝ × ℝ × ℝ × ℝ) : ℝ × ℝ × ℝ × ℝ :=
  let C := s.1 + (s.1 - s.2.1) * s.2.2.1 / (s.2.2.2 - s.2.2.1)
  if f C * s.2.2.2 < 0 then (s.2.1, C, s.2.2.2, f C)
  else (s.1, C, s.2.2.1 / 2, f C)

/-- The Illinois loop of `update_volatility` (line 324), fuel-indexed:
iterate while `|B - A| > ε`. -/
def illinoisLoop (f : ℝ → ℝ) : Nat → ℝ × ℝ × ℝ × ℝ → ℝ × ℝ × ℝ × ℝ
  | 0, s => s
  | fuel + 1, s =>
    if EPSILON < |s.2.1 - s.1| then illinoisLoop f fuel (illinoisStep f s)
    else s

/-- Source src/rating.py `update_volatility` (lines 303-335), fuel-indexed
for both loops. -/
def update_volatility (fuel : Nat) (phi sigma delta v tau : ℝ) : ℝ :=
  let a := Real.log (sigma * sigma)
  let f := uvF phi v a tau delta
  let B :=
    if phi * phi + v < delta * delta then Real.log (delta * delta - phi * phi - v)
    else a - (walkK f a tau fuel 1) * tau
  Real.exp ((illinoisLoop f fuel (a, B, f a, f B)).1 / 2)

/-- The rating, RD and volatility `update_player` returns. -/
structure Update where
  rating : ℝ
  rd : ℝ
  volatility : ℝ

/-- One pairing's contribution to `v_inv` (line 361). -/
def vContrib (mu : ℝ) (opponents : String → Option Snapshot) (pr : String × ℝ) :
    ℝ :=
  glicko_g ((opponents pr.1).getD ⟨0, 0, 0, 0, 0⟩).phi ^ 2 *
    glicko_E mu ((opponents pr.1).getD ⟨0, 0, 0, 0, 0⟩).mu
      ((opponents pr.1).getD ⟨0, 0, 0, 0, 0⟩).phi *
    (1 - glicko_E mu ((opponents pr.1).getD ⟨0, 0, 0, 0, 0⟩).mu
      ((opponents pr.1).getD ⟨0, 0, 0, 0, 0⟩).phi)

/-- One pairing's contribution to `delta_sum` (line 362). -/
def dContrib (mu : ℝ) (opponents : String → Option Snapshot) (pr : String × ℝ) :
    ℝ :=
  glicko_g ((opponents pr.1).getD ⟨0, 0, 0, 0, 0⟩).phi *
    (pr.2 - glicko_E mu ((opponents pr.1).getD ⟨0, 0, 0, 0, 0⟩).mu
      ((opponents pr.1).getD ⟨0, 0, 0, 0, 0⟩).phi)

/-- Source src/rating.py `update_player` (lines 338-385). -/
def update_player (fuel : Nat) (snapshot : Snapshot)
    (pairings : List (String × ℝ)) (opponents : String → Option Snapshot)
    (tau : ℝ) : Update :=
  if pairings = [] then ⟨snapshot.rating, snapshot.rd, snapshot.volatility⟩
  else
    let v_inv := (pairings.map (vContrib snapshot.mu opponents)).sum
    let delta_sum := (pairings.map (dContrib snapshot.mu opponents)).sum
    if v_inv = 0 then ⟨snapshot.rating, snapshot.rd, snapshot.volatility⟩
    else
      let v := 1 / v_inv
      let delta := v * delta_sum
      let new_sigma := update_volatility fuel snapshot.phi snapshot.volatility
        delta v tau
      let phi_star := Real.sqrt (snapshot.phi * snapshot.phi +
        new_sigma * new_sigma)
      let phi_prime := 1 / Real.sqrt (1 / (phi_star * phi_star) + 1 / v)
      let mu_prime := snapshot.mu + phi_prime * phi_prime * delta_sum
      ⟨mu_prime * RATING_SCALE + DEFAULT_RATING,
       min (phi_prime * RATING_SCALE) MAX_RD, new_sigma⟩

/-- One replayed match of a period and weight class. -/
structure GMatch where
  winner_id : String
  loser_id : String
  deriving DecidableEq

/-- The pairings one match appends for a wrestler: `(loser, 1.0)` to the
winner, then `(winner, 0.0)` to the loser (lines 422-423). -/
def pairContrib (id : String) (m : GMatch) : List (String × ℝ) :=
  (if m.winner_id = id then [(m.loser_id, 1)] else []) ++
    (if m.loser_id = id then [(m.winner_id, 0)] else [])

/-- A wrestler's pairing list for a period's matches (the `per_player`
entry), in match order. -/
def pairingsOf (ms : List GMatch) (id : String) : List (String × ℝ) :=
  ms.flatMap (pairContrib id)

/-- Set insertion preserving first-appearance order (a dict key append). -/
def addParticipant (acc : List String) (x : String) : List String :=
  if x ∈ acc then acc else acc ++ [x]

/-- The keys of `per_player` in insertion order: winner then loser of each
match in match order. -/
def participantsOf (ms : List GMatch) : List String :=
  ms.foldl (fun acc m => addParticipant (addParticipant acc m.winner_id)
    m.loser_id) []

/-- The `ensure_state` calls of the match loop (lines 420-421). -/
def ensurePair (p : Nat) (acc : String → Option PState) (m : GMatch) :
    String → Option PState :=
  ensure_state (ensure_state acc m.winner_id p) m.loser_id p

/-- One step of the snapshot loop (lines 427-428): ensure the state, then
apply inactivity in place. -/
def applySnapshotPass (p : Nat) (acc : String → Option PState) (id : String) :
    String → Option PState :=
  fun x =>
    if x = id then
      some (apply_inactivity (stateOf (ensure_state acc id p) id p) p)
    else ensure_state acc id p x

/-- The weight states after the `ensure_state` calls of the match loop. -/
def wsOne (p : Nat) (ms : List GMatch) (ws : String → Option PState) :
    String → Option PState :=
  ms.foldl (ensurePair p) ws

/-- The weight states after the snapshot loop's inactivity updates. -/
def wsTwo (p : Nat) (ms : List GMatch) (ws : String → Option PState) :
    String → Option PState :=
  (participantsOf ms).foldl (applySnapshotPass p) (wsOne p ms ws)

/-- The pre-period snapshots dict (lines 425-429). -/
def snapsOf (p : Nat) (ms : List GMatch) (ws : String → Option PState) :
    String → Option Snapshot :=
  fun x =>
    if x ∈ participantsOf ms then
      some (build_snapshot (stateOf (wsTwo p ms ws) x p))
    else none

/-- One period's processing of one weight class (lines 416-442): ensure
states, apply inactivity, snapshot, update every participant from the same
snapshots, and write the updates back. -/
def processWeight (fuel : Nat) (tau : ℝ) (p : Nat) (ms : List GMatch)
    (ws : String → Option PState) : String → Option PState :=
  fun x =>
    if x ∈ participantsOf ms then
      some { stateOf (wsTwo p ms ws) x p with
        rating := (update_player fuel (build_snapshot (stateOf (wsTwo p ms ws) x p))
          (pairingsOf ms x) (snapsOf p ms ws) tau).rating,
        rd := (update_player fuel (build_snapshot (stateOf (wsTwo p ms ws) x p))
          (pairingsOf ms x) (snapsOf p ms ws) tau).rd,
        volatility := (update_player fuel (build_snapshot (stateOf (wsTwo p ms ws) x p))
          (pairingsOf ms x) (snapsOf p ms ws) tau).volatility,
        last_period_index := p, last_competed_period := some p,
        matches_played := (stateOf (wsTwo p ms ws) x p).matches_played +
          (pairingsOf ms x).length }
    else wsTwo p ms ws x

/-- The period loop of `run_glicko` (lines 410-442), before the final
inactivity pass: `grouped` maps a period index to its weight groups in
iteration order. -/
def glickoMainLoop (fuel : Nat) (tau : ℝ)
    (grouped : Nat → List (String × List GMatch)) (total_periods : Nat) :
    String → String → Option PState :=
  (List.range total_periods).foldl
    (fun states p =>
      (grouped p).foldl
        (fun st wg => fun w =>
          if w = wg.1 then processWeight fuel tau p wg.2 (st wg.1) else st w)
        states)
    (fun _ _ => none)

/-- The final inactivity pass of `run_glicko` (lines 444-447). -/
def finalInactivityPass (states : String → String → Option PState)
    (final_idx : Nat) : String → String → Option PState :=
  fun w id => (states w id).map fun st => apply_inactivity st final_idx

/-- Source src/rating.py `run_glicko` (lines 405-448). -/
def run_glicko (fuel : Nat) (tau : ℝ)
    (grouped : Nat → List (String × List GMatch)) (total_periods : Nat) :
    String → String → Option PState :=
  finalInactivityPass (glickoMainLoop fuel tau grouped total_periods)
    (total_periods - 1)

/-- The RD a replay reports for a (weight, wrestler) slot; untracked slots
read as the default RD. -/
def rdOf (states : String → String → Option PState) (w id : String) : ℝ :=
  ((states w id).map fun st => st.rd).getD DEFAULT_RD

/-- A states function whose every tracked state has RD at most the cap. -/
def RdInv (s : String → Option PState) : Prop :=
  ∀ x st, s x = some st → st.rd ≤ MAX_RD

end

end Rating

/-- C2 counterexample: the claim maps the input ".5" to "0.5", but
`re.findall` applied to ".5" yields only the single-digit token "5", which is
discarded, so the label is dropped. -/
theorem C2_counterexample :
    Rating.normalize_weight_label (some ".5") = none ∧
      Rating.normalize_weight_label (some ".5") ≠ some "0.5" := by
  constructor
  · rfl
  · decide

/-- C2 (amended): `normalize_weight_label` maps "138" to "138",
"125.5 lbs" to "125.5", "113 kg" to "113", and drops ".5" (its only numeric
token "5" has a single digit), "" and "9". -/
theorem C2_normalize_weight_label_cases :
    Rating.normalize_weight_label (some "138") = some "138" ∧
      Rating.normalize_weight_label (some "125.5 lbs") = some "125.5" ∧
      Rating.normalize_weight_label (some "113 kg") = some "113" ∧
      Rating.normalize_weight_label (some ".5") = none ∧
      Rating.normalize_weight_label (some "") = none ∧
      Rating.normalize_weight_label (some "9") = none := by
  refine ⟨rfl, rfl, rfl, rfl, rfl, rfl⟩

namespace Store

/-- Reading back the depth right after `record_seen_wrestler` of the same id:
a fresh row stores the given depth, an existing row the minimum. -/
theorem seenDepthRows_record_self (l : List SeenRow) (id : String) (depth : Nat) :
    seenDepthRows (recordSeenRows id depth l) id =
      some (match seenDepthRows l id with
            | none => depth
            | some d => min d depth) := by
  induction l with
  | nil => simp [recordSeenRows, seenDepthRows]
  | cons r t ih =>
    by_cases h : r.wrestler_id = id
    · simp [recordSeenRows, seenDepthRows, h]
    · rw [recordSeenRows, if_neg h]
      simpa [seenDepthRows, List.find?_cons, h] using ih

/-- `record_seen_wrestler` of one id leaves the stored depth of any other id
unchanged. -/
theorem seenDepthRows_record_other (l : List SeenRow) (id id' : String) (depth : Nat)
    (h : id ≠ id') :
    seenDepthRows (recordSeenRows id' depth l) id = seenDepthRows l id := by
  have hne : ¬ (id' = id) := fun h' => h h'.symm
  induction l with
  | nil => simp [recordSeenRows, seenDepthRows, hne]
  | cons r t ih =>
    by_cases hr : r.wrestler_id = id'
    · have hrid : ¬ r.wrestler_id = id := by rw [hr]; exact hne
      rw [recordSeenRows, if_pos hr]
      simp [seenDepthRows, List.find?_cons, hrid, hne]
    · rw [recordSeenRows, if_neg hr]
      by_cases hid : r.wrestler_id = id
      · simp [seenDepthRows, List.find?_cons, hid]
      · simpa [seenDepthRows, List.find?_cons, hid] using ih

/-- One `record_seen_wrestler` call can only keep or lower a stored depth. -/
theorem seenDepth_record_le (db : Db) (id : String) (c : String × Nat) (d : Nat)
    (h : seenDepth db id = some d) :
    ∃ d₁, seenDepth (record_seen_wrestler c.1 c.2 db) id = some d₁ ∧ d₁ ≤ d := by
  by_cases hc : c.1 = id
  · refine ⟨min d c.2, ?_, min_le_left _ _⟩
    have := seenDepthRows_record_self db.seen id c.2
    subst hc
    simp only [seenDepth, record_seen_wrestler] at *
    rw [this, h]
  · exact ⟨d, by
      simpa [seenDepth, record_seen_wrestler,
        seenDepthRows_record_other db.seen id c.1 c.2 fun h' => hc h'.symm] using h,
      le_refl d⟩

end Store

/-- C7: `record_seen_wrestler(id, depth)` inserts the row `(id, depth)` when
no seen row for the id exists and otherwise stores
`min(existing_depth, depth)`; consequently the stored depth of any wrestler
is non-increasing along any sequence of `record_seen_wrestler` calls. -/
theorem C7_record_seen_min_and_monotone :
    (∀ (db : Store.Db) (id : String) (depth : Nat),
        Store.seenDepth (Store.record_seen_wrestler id depth db) id =
          some (match Store.seenDepth db id with
                | none => depth
                | some d => min d depth)) ∧
    (∀ (calls : List (String × Nat)) (db : Store.Db) (id : String) (d d' : Nat),
        Store.seenDepth db id = some d →
        Store.seenDepth
            (calls.foldl (fun s c => Store.record_seen_wrestler c.1 c.2 s) db) id =
          some d' →
        d' ≤ d) := by
  constructor
  · intro db id depth
    exact Store.seenDepthRows_record_self db.seen id depth
  · intro calls
    induction calls with
    | nil =>
      intro db id d d' h h'
      rw [List.foldl_nil] at h'
      rw [h] at h'
      exact le_of_eq (Option.some_inj.mp h'.symm)
    | cons c t ih =>
      intro db id d d' h h'
      obtain ⟨d₁, hd₁, hle⟩ := Store.seenDepth_record_le db id c d h
      rw [List.foldl_cons] at h'
      exact le_trans (ih _ id d₁ d' hd₁ h') hle

/-- C7 witness: a concrete run where the depth 3 row of wrestler "a" is
lowered to 1 by later discoveries and never raised again. -/
theorem C7_record_seen_min_and_monotone_witness :
    Store.seenDepth ⟨none, [], [⟨"a", 3, false⟩], [], [], [], [], []⟩ "a" = some 3 ∧
    Store.seenDepth
        (([("b", 2), ("a", 1), ("a", 4)] : List (String × Nat)).foldl
          (fun s c => Store.record_seen_wrestler c.1 c.2 s)
          ⟨none, [], [⟨"a", 3, false⟩], [], [], [], [], []⟩) "a" = some 1 ∧
    (1 : Nat) ≤ 3 :=
  ⟨by decide, by decide,
    C7_record_seen_min_and_monotone.2 [("b", 2), ("a", 1), ("a", 4)]
      ⟨none, [], [⟨"a", 3, false⟩], [], [], [], [], []⟩ "a" 3 1 (by decide) (by decide)⟩

/-- A property preserved by every step of a left fold holds of the result. -/
theorem foldl_hold {α β : Type _} (f : β → α → β) (P : β → Prop)
    (h : ∀ b a, P b → P (f b a)) : ∀ (l : List α) (b : β), P b → P (l.foldl f b) := by
  intro l
  induction l with
  | nil => intro b hb; exact hb
  | cons a t ih => intro b hb; exact ih (f b a) (h b a hb)

/-- A list filtered on being different from `s` cannot contain `s`. -/
theorem not_mem_filter_ne (s : String) (l : List String) :
    s ∉ l.filter fun x => x ≠ s := by
  intro h
  rw [List.mem_filter] at h
  simp at h

/-- The seed-first property of `setupRest`, for every flag combination. -/
theorem setupRest_seed_first (seed : String) (depth pd : Nat) (sc du : Bool)
    (db : Store.Db) :
    (Crawler.setupRest seed depth pd sc du db).queue.head? = some (seed, 0) ∧
      seed ∉ (Crawler.setupRest seed depth pd sc du db).seen ∧
      seed ∉ (Crawler.setupRest seed depth pd sc du db).processed := by
  cases sc <;> cases du <;>
    exact ⟨rfl, not_mem_filter_ne seed _, not_mem_filter_ne seed _⟩

/-- C4: for every invocation of `crawl` (any persisted state, seed, depth
and reset flag), right before the main loop the head of the deque is
`(seed, 0)` and the seed is in neither the in-memory Seen set nor the
in-memory Processed set. -/
theorem C4_seed_first_invariant (seed : String) (depth : Nat) (reset : Bool)
    (db : Store.Db) :
    (Crawler.crawlSetup seed depth reset db).queue.head? = some (seed, 0) ∧
      seed ∉ (Crawler.crawlSetup seed depth reset db).seen ∧
      seed ∉ (Crawler.crawlSetup seed depth reset db).processed :=
  setupRest_seed_first seed depth _ _ _ _

namespace Crawler

/-- `create_match` either leaves the matches table unchanged or appends the
given row. -/
theorem create_match_mem (row : Store.MatchRow) (db : Store.Db) (r : Store.MatchRow)
    (h : r ∈ (Store.create_match row db).match_rows) :
    r ∈ db.match_rows ∨ r = row := by
  unfold Store.create_match at h
  split at h
  · exact Or.inl h
  · split at h
    · exact Or.inl h
    · simp only [List.mem_append, List.mem_singleton] at h
      exact h

/-- The first included pass never touches the matches table. -/
theorem ingestIncludedOne_match_rows (d : Store.Db) (o : IncludedObj) :
    (ingestIncludedOne d o).match_rows = d.match_rows := by
  unfold ingestIncludedOne Store.create_team Store.create_event
  repeat' split
  all_goals rfl

/-- The second included pass never touches the matches table. -/
theorem ingestIncludedTwo_match_rows (page : Page) (d : Store.Db) (o : IncludedObj) :
    (ingestIncludedTwo page d o).match_rows = d.match_rows := by
  unfold ingestIncludedTwo Store.create_wrestler
  repeat' split
  all_goals rfl

/-- The two passes over `included` never touch the matches table. -/
theorem ingestIncluded_match_rows (page : Page) (db : Store.Db) :
    ((page.included.foldl (ingestIncludedTwo page)
        (page.included.foldl ingestIncludedOne db))).match_rows = db.match_rows := by
  have p1 := foldl_hold ingestIncludedOne
    (fun d => d.match_rows = db.match_rows)
    (fun d o hd => by
      show (ingestIncludedOne d o).match_rows = db.match_rows
      rw [ingestIncludedOne_match_rows d o]; exact hd) page.included db rfl
  exact foldl_hold (ingestIncludedTwo page)
    (fun d => d.match_rows = db.match_rows)
    (fun d o hd => by
      show (ingestIncludedTwo page d o).match_rows = db.match_rows
      rw [ingestIncludedTwo_match_rows page d o]; exact hd) page.included _ p1

/-- A row present after one bout-loop step was already present, or is the
freshly inserted row of a non-bye bout. -/
theorem ingestMatch_mem (parseIso : String → Option Int) (page : Page)
    (this_id : String) (aw : Option (List String)) (sd ed : Option Int)
    (acc : List String × Store.Db) (m : MatchObj) (r : Store.MatchRow)
    (h : r ∈ (ingestMatch parseIso page this_id aw sd ed acc m).2.match_rows) :
    r ∈ acc.2.match_rows ∨ r.winType ≠ some "BYE" := by
  unfold ingestMatch at h
  by_cases hbye : m.attributes.winType = some "BYE"
  · rw [if_pos hbye] at h
    exact Or.inl h
  · rw [if_neg hbye] at h
    repeat' split at h
    all_goals first
      | exact Or.inl h
      | (rcases create_match_mem _ _ _ h with hm | hm
         · exact Or.inl hm
         · right; rw [hm]; exact hbye)

/-- C3: `update_db` never inserts a Match row whose `winType` is `"BYE"`,
and consequently, over any sequence of page ingests starting from a store
without bye rows, no row of the matches table ever has `winType = "BYE"`. -/
theorem C3_no_bye_match_rows :
    (∀ (parseIso : String → Option Int) (page : Page) (this_id : String)
        (aw : Option (List String)) (sd ed : Option Int) (db : Store.Db)
        (r : Store.MatchRow),
        r ∈ (update_db parseIso page this_id aw sd ed db).2.match_rows →
        r ∈ db.match_rows ∨ r.winType ≠ some "BYE") ∧
    (∀ (parseIso : String → Option Int)
        (ingests : List (Page × String × Option (List String) × Option Int × Option Int))
        (db : Store.Db),
        (∀ r ∈ db.match_rows, r.winType ≠ some "BYE") →
        ∀ r ∈ (ingests.foldl
            (fun d i => (update_db parseIso i.1 i.2.1 i.2.2.1 i.2.2.2.1 i.2.2.2.2 d).2)
            db).match_rows,
          r.winType ≠ some "BYE") := by
  have step : ∀ (parseIso : String → Option Int) (page : Page) (this_id : String)
      (aw : Option (List String)) (sd ed : Option Int) (db : Store.Db)
      (r : Store.MatchRow),
      r ∈ (update_db parseIso page this_id aw sd ed db).2.match_rows →
      r ∈ db.match_rows ∨ r.winType ≠ some "BYE" := by
    intro parseIso page this_id aw sd ed db r h
    unfold update_db at h
    simp only [Store.mark_fetch] at h
    have h' : r ∈ (page.data.foldl
        (ingestMatch parseIso page this_id aw sd ed)
        ([], page.included.foldl (ingestIncludedTwo page)
          (page.included.foldl ingestIncludedOne db))).2.match_rows := by
      split at h <;> exact h
    have base := ingestIncluded_match_rows page db
    have := foldl_hold (ingestMatch parseIso page this_id aw sd ed)
      (fun a => ∀ s ∈ a.2.match_rows, s ∈ db.match_rows ∨ s.winType ≠ some "BYE")
      (fun a m ha s hs => by
        rcases ingestMatch_mem parseIso page this_id aw sd ed a m s hs with hin | hne
        · exact ha s hin
        · exact Or.inr hne)
      page.data ([], _)
      (by intro s hs; rw [base] at hs; exact Or.inl hs)
    exact this r h'
  refine ⟨step, ?_⟩
  intro parseIso ingests db hdb
  refine foldl_hold _ (fun d => ∀ r ∈ d.match_rows, r.winType ≠ some "BYE")
    (fun d i hd r hr => ?_) ingests db hdb
  rcases step parseIso i.1 i.2.1 i.2.2.1 i.2.2.2.1 i.2.2.2.2 d r hr with hin | hne
  · exact hd r hin
  · exact hne

/-- C8: the date gate of match ingestion keeps a match exactly as the
specification words it: an unresolvable timestamp is allowed only when
neither bound was supplied, and a resolved day is allowed exactly when it
lies within the inclusive bounds. -/
theorem C8_date_gate (parseIso : String → Option Int) (page : Page) (m : MatchObj)
    (start_date end_date : Option Int) :
    is_date_allowed (extract_match_date parseIso page m) start_date end_date =
      dateAllowedSpec (extract_match_date parseIso page m) start_date end_date := by
  rcases extract_match_date parseIso page m with _ | d
  · rfl
  · rcases start_date with _ | sb <;> rcases end_date with _ | eb <;>
      (rw [Bool.eq_iff_iff]; simp [is_date_allowed, dateAllowedSpec])

end Crawler

namespace Crawler

/-- One bout-loop step is the pure opponent decision paired with the pure
match-row decision. -/
theorem ingestMatch_eq (parseIso : String → Option Int) (page : Page)
    (this_id : String) (aw : Option (List String)) (sd ed : Option Int)
    (acc : List String × Store.Db) (m : MatchObj) :
    ingestMatch parseIso page this_id aw sd ed acc m =
      ((match oppAddOf parseIso page this_id aw sd ed m with
        | none => acc.1
        | some o => addOpponent acc.1 o),
       (match matchRowOf parseIso page this_id aw sd ed m with
        | none => acc.2
        | some row => Store.create_match row acc.2)) := by
  unfold ingestMatch oppAddOf matchRowOf
  repeat' split
  all_goals first
    | rfl
    | simp_all

/-- The bout-loop fold decomposes into independent folds of the two pure
decisions. -/
theorem foldl_ingestMatch (parseIso : String → Option Int) (page : Page)
    (this_id : String) (aw : Option (List String)) (sd ed : Option Int)
    (data : List MatchObj) (o0 : List String) (d0 : Store.Db) :
    data.foldl (ingestMatch parseIso page this_id aw sd ed) (o0, d0) =
      ((data.filterMap (oppAddOf parseIso page this_id aw sd ed)).foldl addOpponent o0,
       (data.filterMap (matchRowOf parseIso page this_id aw sd ed)).foldl
         (fun d row => Store.create_match row d) d0) := by
  induction data generalizing o0 d0 with
  | nil => rfl
  | cons m t ih =>
    rw [List.foldl_cons, ingestMatch_eq]
    rcases ho : oppAddOf parseIso page this_id aw sd ed m with _ | o <;>
      rcases hr : matchRowOf parseIso page this_id aw sd ed m with _ | row <;>
      simp [List.filterMap_cons, ho, hr, ih]

end Crawler

namespace Store

/-- `create_team` leaves crawler state, queue and seen rows unchanged. -/
theorem create_team_frontier (id name : Option String) (db : Db) :
    (create_team id name db).crawlerState = db.crawlerState ∧
      (create_team id name db).queue = db.queue ∧
      (create_team id name db).seen = db.seen := by
  unfold create_team
  repeat' split
  all_goals exact ⟨rfl, rfl, rfl⟩

/-- `create_event` leaves crawler state, queue and seen rows unchanged. -/
theorem create_event_frontier (id name : String) (date : Option String)
    (location : String) (db : Db) :
    (create_event id name date location db).crawlerState = db.crawlerState ∧
      (create_event id name date location db).queue = db.queue ∧
      (create_event id name date location db).seen = db.seen := by
  unfold create_event
  repeat' split
  all_goals exact ⟨rfl, rfl, rfl⟩

/-- `create_wrestler` leaves crawler state, queue and seen rows unchanged. -/
theorem create_wrestler_frontier (id name : String) (team : Option String) (db : Db) :
    (create_wrestler id name team db).crawlerState = db.crawlerState ∧
      (create_wrestler id name team db).queue = db.queue ∧
      (create_wrestler id name team db).seen = db.seen := by
  unfold create_wrestler
  repeat' split
  all_goals exact ⟨rfl, rfl, rfl⟩

/-- `create_match` leaves crawler state, queue and seen rows unchanged. -/
theorem create_match_frontier (row : MatchRow) (db : Db) :
    (create_match row db).crawlerState = db.crawlerState ∧
      (create_match row db).queue = db.queue ∧
      (create_match row db).seen = db.seen := by
  unfold create_match
  repeat' split
  all_goals exact ⟨rfl, rfl, rfl⟩

/-- `mark_fetch` leaves crawler state, queue and seen rows unchanged. -/
theorem mark_fetch_frontier (id : String) (db : Db) :
    (mark_fetch id db).crawlerState = db.crawlerState ∧
      (mark_fetch id db).queue = db.queue ∧
      (mark_fetch id db).seen = db.seen := by
  unfold mark_fetch
  split
  all_goals exact ⟨rfl, rfl, rfl⟩

/-- `create_match` acts on the matches table as `insMatchRows`. -/
theorem create_match_match_rows (row : MatchRow) (db : Db) :
    (create_match row db).match_rows = Crawler.insMatchRows row db.match_rows := by
  unfold create_match Crawler.insMatchRows
  repeat' split
  all_goals first
    | rfl
    | simp_all

end Store

namespace Crawler

/-- The bout-loop step leaves crawler state, queue and seen rows unchanged. -/
theorem ingestMatch_frontier (parseIso : String → Option Int) (page : Page)
    (this_id : String) (aw : Option (List String)) (sd ed : Option Int)
    (acc : List String × Store.Db) (m : MatchObj) :
    (ingestMatch parseIso page this_id aw sd ed acc m).2.crawlerState =
        acc.2.crawlerState ∧
      (ingestMatch parseIso page this_id aw sd ed acc m).2.queue = acc.2.queue ∧
      (ingestMatch parseIso page this_id aw sd ed acc m).2.seen = acc.2.seen := by
  rw [ingestMatch_eq]
  rcases matchRowOf parseIso page this_id aw sd ed m with _ | row
  · exact ⟨rfl, rfl, rfl⟩
  · exact Store.create_match_frontier row acc.2

/-- The included passes leave crawler state, queue and seen rows
unchanged. -/
theorem ingestIncluded_frontier (page : Page) (db : Store.Db) :
    ∀ (l : List IncludedObj) (d : Store.Db),
      d.crawlerState = db.crawlerState ∧ d.queue = db.queue ∧ d.seen = db.seen →
      ∀ (g : Store.Db → IncludedObj → Store.Db),
        (∀ (d' : Store.Db) (o : IncludedObj),
          (g d' o).crawlerState = d'.crawlerState ∧ (g d' o).queue = d'.queue ∧
            (g d' o).seen = d'.seen) →
        (l.foldl g d).crawlerState = db.crawlerState ∧
          (l.foldl g d).queue = db.queue ∧ (l.foldl g d).seen = db.seen := by
  intro l d hd g hg
  refine foldl_hold g
    (fun x => x.crawlerState = db.crawlerState ∧ x.queue = db.queue ∧ x.seen = db.seen)
    (fun b a hb => ?_) l d hd
  obtain ⟨h1, h2, h3⟩ := hg b a
  exact ⟨h1.trans hb.1, h2.trans hb.2.1, h3.trans hb.2.2⟩

/-- `ingestIncludedOne` preserves crawler state, queue and seen rows. -/
theorem ingestIncludedOne_frontier (d : Store.Db) (o : IncludedObj) :
    (ingestIncludedOne d o).crawlerState = d.crawlerState ∧
      (ingestIncludedOne d o).queue = d.queue ∧
      (ingestIncludedOne d o).seen = d.seen := by
  unfold ingestIncludedOne
  split
  · exact Store.create_team_frontier _ _ _
  · split
    · exact Store.create_event_frontier _ _ _ _ _
    · exact ⟨rfl, rfl, rfl⟩

/-- `ingestIncludedTwo` preserves crawler state, queue and seen rows. -/
theorem ingestIncludedTwo_frontier (page : Page) (d : Store.Db) (o : IncludedObj) :
    (ingestIncludedTwo page d o).crawlerState = d.crawlerState ∧
      (ingestIncludedTwo page d o).queue = d.queue ∧
      (ingestIncludedTwo page d o).seen = d.seen := by
  unfold ingestIncludedTwo
  split
  · exact Store.create_wrestler_frontier _ _ _ _
  · exact ⟨rfl, rfl, rfl⟩

/-- `update_db` writes entities and fetch marks only: crawler state, the
queue and the seen rows are untouched. -/
theorem update_db_frontier (parseIso : String → Option Int) (page : Page)
    (this_id : String) (aw : Option (List String)) (sd ed : Option Int)
    (db : Store.Db) :
    (update_db parseIso page this_id aw sd ed db).2.crawlerState = db.crawlerState ∧
      (update_db parseIso page this_id aw sd ed db).2.queue = db.queue ∧
      (update_db parseIso page this_id aw sd ed db).2.seen = db.seen := by
  unfold update_db
  have h1 := ingestIncluded_frontier page db page.included db ⟨rfl, rfl, rfl⟩
    ingestIncludedOne (fun d o => ingestIncludedOne_frontier d o)
  have h2 := ingestIncluded_frontier page db page.included _ h1
    (ingestIncludedTwo page) (fun d o => ingestIncludedTwo_frontier page d o)
  have h3 := foldl_hold
    (ingestMatch parseIso page this_id aw sd ed)
    (fun a => a.2.crawlerState = db.crawlerState ∧ a.2.queue = db.queue ∧
      a.2.seen = db.seen)
    (fun b a hb => by
      obtain ⟨g1, g2, g3⟩ := ingestMatch_frontier parseIso page this_id aw sd ed b a
      exact ⟨g1.trans hb.1, g2.trans hb.2.1, g3.trans hb.2.2⟩)
    page.data ([], _) h2
  obtain ⟨f1, f2, f3⟩ := Store.mark_fetch_frontier this_id
    (page.data.foldl (ingestMatch parseIso page this_id aw sd ed) ([], _)).2
  exact ⟨f1.trans h3.1, f2.trans h3.2.1, f3.trans h3.2.2⟩

/-- The opponent set returned by `update_db` is a pure function of the
page. -/
theorem update_db_fst (parseIso : String → Option Int) (page : Page)
    (this_id : String) (aw : Option (List String)) (sd ed : Option Int)
    (db : Store.Db) :
    (update_db parseIso page this_id aw sd ed db).1 =
      (page.data.filterMap (oppAddOf parseIso page this_id aw sd ed)).foldl
        addOpponent [] := by
  unfold update_db
  dsimp only
  rw [foldl_ingestMatch]

/-- The matches table after `update_db` is the insert fold of the pure
match-row decisions. -/
theorem update_db_match_rows (parseIso : String → Option Int) (page : Page)
    (this_id : String) (aw : Option (List String)) (sd ed : Option Int)
    (db : Store.Db) :
    (update_db parseIso page this_id aw sd ed db).2.match_rows =
      (page.data.filterMap (matchRowOf parseIso page this_id aw sd ed)).foldl
        (fun ms row => insMatchRows row ms) db.match_rows := by
  have hcreate : ∀ (l : List Store.MatchRow) (d : Store.Db),
      (l.foldl (fun d row => Store.create_match row d) d).match_rows =
        l.foldl (fun ms row => insMatchRows row ms) d.match_rows := by
    intro l
    induction l with
    | nil => intro d; rfl
    | cons r t ih =>
      intro d
      rw [List.foldl_cons, List.foldl_cons, ih, Store.create_match_match_rows]
  have hmark : ∀ (i : String) (d : Store.Db),
      (Store.mark_fetch i d).match_rows = d.match_rows := by
    intro i d
    unfold Store.mark_fetch
    split <;> rfl
  unfold update_db
  dsimp only
  rw [foldl_ingestMatch]
  dsimp only
  rw [hmark, hcreate, ingestIncluded_match_rows page db]

end Crawler

namespace Crawler

/-- The opponent component of the follow-up fold does not depend on the
store component of the accumulator. -/
theorem downloadStep_fold_fst (parseIso : String → Option Int) (id : String)
    (aw : Option (List String)) (sb eb : Option Int) :
    ∀ (ps : List Page) (acc acc' : List String × Store.Db), acc.1 = acc'.1 →
      (ps.foldl (downloadStep parseIso id aw sb eb) acc).1 =
        (ps.foldl (downloadStep parseIso id aw sb eb) acc').1 := by
  intro ps
  induction ps with
  | nil => intro acc acc' h; exact h
  | cons p t ih =>
    intro acc acc' h
    rw [List.foldl_cons, List.foldl_cons]
    refine ih _ _ ?_
    unfold downloadStep
    dsimp only
    rw [update_db_fst parseIso p id aw sb eb acc.2,
      update_db_fst parseIso p id aw sb eb acc'.2, h]

/-- The opponent set returned by `download_matches` does not depend on the
starting store: both equal `oppsOf`. -/
theorem download_matches_fst (pages : String → Page × List Page)
    (parseIso : String → Option Int) (id : String) (aw : Option (List String))
    (sd ed : Option String) (db : Store.Db) :
    (download_matches pages parseIso id aw sd ed db).1 =
      oppsOf pages parseIso id aw sd ed := by
  unfold oppsOf download_matches
  dsimp only
  refine downloadStep_fold_fst parseIso id aw _ _ (pages id).2 _ _ ?_
  rw [update_db_fst parseIso (pages id).1 id aw _ _ db,
    update_db_fst parseIso (pages id).1 id aw _ _ Store.emptyDb]

/-- `download_matches` leaves crawler state, queue and seen rows
unchanged. -/
theorem download_matches_frontier (pages : String → Page × List Page)
    (parseIso : String → Option Int) (id : String) (aw : Option (List String))
    (sd ed : Option String) (db : Store.Db) :
    (download_matches pages parseIso id aw sd ed db).2.crawlerState =
        db.crawlerState ∧
      (download_matches pages parseIso id aw sd ed db).2.queue = db.queue ∧
      (download_matches pages parseIso id aw sd ed db).2.seen = db.seen := by
  unfold download_matches
  dsimp only
  refine foldl_hold (downloadStep parseIso id aw _ _)
    (fun acc => acc.2.crawlerState = db.crawlerState ∧ acc.2.queue = db.queue ∧
      acc.2.seen = db.seen)
    (fun b p hb => ?_) (pages id).2 _
    (update_db_frontier parseIso (pages id).1 id aw _ _ db)
  obtain ⟨h1, h2, h3⟩ := update_db_frontier parseIso p id aw _ _ b.2
  exact ⟨h1.trans hb.1, h2.trans hb.2.1, h3.trans hb.2.2⟩

/-- The matches table after `download_matches` is the insert fold of all
attempted rows of the page sequence. -/
theorem download_matches_match_rows (pages : String → Page × List Page)
    (parseIso : String → Option Int) (id : String) (aw : Option (List String))
    (sd ed : Option String) (db : Store.Db) :
    (download_matches pages parseIso id aw sd ed db).2.match_rows =
      (attemptsOf pages parseIso id aw sd ed).foldl
        (fun ms row => insMatchRows row ms) db.match_rows := by
  have hfold : ∀ (ps : List Page) (acc : List String × Store.Db),
      ((ps.foldl (downloadStep parseIso id aw
          (normalize_date_bound parseIso sd) (normalize_date_bound parseIso ed))
        acc).2).match_rows =
      (ps.flatMap fun p => p.data.filterMap (matchRowOf parseIso p id aw
          (normalize_date_bound parseIso sd) (normalize_date_bound parseIso ed))).foldl
        (fun ms row => insMatchRows row ms) acc.2.match_rows := by
    intro ps
    induction ps with
    | nil => intro acc; rfl
    | cons p t ih =>
      intro acc
      rw [List.foldl_cons, List.flatMap_cons, List.foldl_append, ih]
      unfold downloadStep
      dsimp only
      rw [update_db_match_rows]
  unfold download_matches attemptsOf allPages
  dsimp only
  rw [hfold, List.flatMap_cons, List.foldl_append, update_db_match_rows]

/-- `insMatchRows` only appends, so table ids are monotone. -/
theorem insMatchRows_ids_mono (row : Store.MatchRow) (ms : List Store.MatchRow)
    (i : String) (h : i ∈ matchIds ms) : i ∈ matchIds (insMatchRows row ms) := by
  unfold insMatchRows
  split
  · exact h
  · split
    · exact h
    · simp only [matchIds, List.map_append, List.mem_append] at h ⊢
      exact Or.inl h

/-- After inserting a row with both participants present, its id is in the
table. -/
theorem insMatchRows_ensures (row : Store.MatchRow) (ms : List Store.MatchRow)
    (htop : row.topWrestler_id ≠ none) (hbot : row.bottomWrestler_id ≠ none) :
    row.id ∈ matchIds (insMatchRows row ms) := by
  unfold insMatchRows
  split
  · rename_i hguard
    rcases hguard with h | h
    · exact absurd h htop
    · exact absurd h hbot
  · split
    · rename_i hany
      simp only [List.any_eq_true, decide_eq_true_eq] at hany
      obtain ⟨m, hm, hmid⟩ := hany
      simp only [matchIds, List.mem_map]
      exact ⟨m, hm, hmid⟩
    · simp [matchIds]

/-- Inserting a row whose id is already present leaves the table
unchanged. -/
theorem insMatchRows_noop (row : Store.MatchRow) (ms : List Store.MatchRow)
    (h : row.id ∈ matchIds ms) : insMatchRows row ms = ms := by
  unfold insMatchRows
  split
  · rfl
  · split
    · rfl
    · rename_i hany
      exfalso
      apply hany
      simp only [matchIds, List.mem_map] at h
      obtain ⟨m, hm, hmid⟩ := h
      simp only [List.any_eq_true, decide_eq_true_eq]
      exact ⟨m, hm, hmid⟩

/-- Table ids are monotone along the insert fold. -/
theorem insFold_ids_mono (atts : List Store.MatchRow) (ms : List Store.MatchRow)
    (i : String) (h : i ∈ matchIds ms) :
    i ∈ matchIds (atts.foldl (fun ms row => insMatchRows row ms) ms) :=
  foldl_hold _ (fun ms => i ∈ matchIds ms)
    (fun b a hb => insMatchRows_ids_mono a b i hb) atts ms h

/-- After the insert fold, every attempted row with both participants has
its id in the table. -/
theorem insFold_ensures (atts : List Store.MatchRow) (ms : List Store.MatchRow)
    (hp : ∀ row ∈ atts, row.topWrestler_id ≠ none ∧ row.bottomWrestler_id ≠ none) :
    ∀ row ∈ atts, row.id ∈ matchIds (atts.foldl (fun ms row => insMatchRows row ms) ms) := by
  induction atts generalizing ms with
  | nil => intro row h; cases h
  | cons a t ih =>
    intro row h
    rw [List.foldl_cons]
    rcases List.mem_cons.mp h with rfl | h
    · obtain ⟨h1, h2⟩ := hp row (List.mem_cons_self row t)
      exact insFold_ids_mono t _ _ (insMatchRows_ensures row ms h1 h2)
    · exact ih _ (fun r hr => hp r (List.mem_cons_of_mem a hr)) row h

/-- The insert fold is the identity when every attempted id is already in
the table. -/
theorem insFold_noop (atts : List Store.MatchRow) (ms : List Store.MatchRow)
    (h : ∀ row ∈ atts, row.id ∈ matchIds ms) :
    atts.foldl (fun ms row => insMatchRows row ms) ms = ms := by
  induction atts with
  | nil => rfl
  | cons a t ih =>
    rw [List.foldl_cons, insMatchRows_noop a ms (h a (List.mem_cons_self a t))]
    exact ih fun r hr => h r (List.mem_cons_of_mem a hr)

/-- Rows produced by `matchRowOf` always carry both participants. -/
theorem matchRowOf_participants (parseIso : String → Option Int) (page : Page)
    (this_id : String) (aw : Option (List String)) (sd ed : Option Int)
    (m : MatchObj) (row : Store.MatchRow)
    (h : matchRowOf parseIso page this_id aw sd ed m = some row) :
    row.topWrestler_id ≠ none ∧ row.bottomWrestler_id ≠ none := by
  unfold matchRowOf at h
  repeat' split at h
  all_goals cases h
  constructor <;> simp

/-- Every attempted row of a page sequence carries both participants. -/
theorem attemptsOf_participants (pages : String → Page × List Page)
    (parseIso : String → Option Int) (id : String) (aw : Option (List String))
    (sd ed : Option String) :
    ∀ row ∈ attemptsOf pages parseIso id aw sd ed,
      row.topWrestler_id ≠ none ∧ row.bottomWrestler_id ≠ none := by
  intro row h
  unfold attemptsOf at h
  rw [List.mem_flatMap] at h
  obtain ⟨p, _, hp⟩ := h
  rw [List.mem_filterMap] at hp
  obtain ⟨m, _, hm⟩ := hp
  exact matchRowOf_participants parseIso p id aw _ _ m row hm

end Crawler

namespace Store

/-- `recordSeenRows` keeps every existing depth bound. -/
theorem recordSeenRows_SeenLE (i : String) (j : Nat) (o : String) (k : Nat) :
    ∀ l : List SeenRow, (∃ row ∈ l, row.wrestler_id = o ∧ row.depth ≤ k) →
      ∃ row ∈ recordSeenRows i j l, row.wrestler_id = o ∧ row.depth ≤ k := by
  intro l
  induction l with
  | nil => rintro ⟨row, hrow, _⟩; cases hrow
  | cons r t ih =>
    rintro ⟨row, hrow, hid, hdep⟩
    unfold recordSeenRows
    split
    · rcases List.mem_cons.mp hrow with rfl | hrow
      · exact ⟨{ row with depth := min row.depth j }, List.mem_cons_self _ _,
          hid, le_trans (min_le_left _ _) hdep⟩
      · exact ⟨row, List.mem_cons_of_mem _ hrow, hid, hdep⟩
    · rcases List.mem_cons.mp hrow with rfl | hrow
      · exact ⟨row, List.mem_cons_self _ _, hid, hdep⟩
      · obtain ⟨row', h1, h2, h3⟩ := ih ⟨row, hrow, hid, hdep⟩
        exact ⟨row', List.mem_cons_of_mem _ h1, h2, h3⟩

/-- After `recordSeenRows o k`, a row for `o` with depth at most `k`
exists. -/
theorem recordSeenRows_SeenLE_self (o : String) (k : Nat) :
    ∀ l : List SeenRow,
      ∃ row ∈ recordSeenRows o k l, row.wrestler_id = o ∧ row.depth ≤ k := by
  intro l
  induction l with
  | nil => exact ⟨⟨o, k, false⟩, List.mem_singleton_self _, rfl, le_refl k⟩
  | cons r t ih =>
    unfold recordSeenRows
    split
    · rename_i hr
      exact ⟨{ r with depth := min r.depth k }, List.mem_cons_self _ _, hr,
        min_le_right _ _⟩
    · obtain ⟨row, h1, h2, h3⟩ := ih
      exact ⟨row, List.mem_cons_of_mem _ h1, h2, h3⟩

/-- `mark_wrestler_processed` keeps ids and depths of all seen rows. -/
theorem mark_processed_SeenLE (i : String) (db : Db) (o : String) (k : Nat)
    (h : ∃ row ∈ db.seen, row.wrestler_id = o ∧ row.depth ≤ k) :
    ∃ row ∈ (mark_wrestler_processed i db).seen,
      row.wrestler_id = o ∧ row.depth ≤ k := by
  obtain ⟨row, hrow, hid, hdep⟩ := h
  refine ⟨if row.wrestler_id = i then { row with processed := true } else row,
    List.mem_map_of_mem _ hrow, ?_, ?_⟩ <;> split <;> simp [hid, hdep]

/-- The wrestler ids stored by `recordSeenRows`. -/
theorem recordSeenRows_ids (i : String) (j : Nat) :
    ∀ l : List SeenRow,
      (recordSeenRows i j l).map (fun r => r.wrestler_id) =
        if l.any (fun r => r.wrestler_id = i) then l.map (fun r => r.wrestler_id)
        else l.map (fun r => r.wrestler_id) ++ [i] := by
  intro l
  induction l with
  | nil => simp [recordSeenRows]
  | cons r t ih =>
    unfold recordSeenRows
    by_cases hr : r.wrestler_id = i
    · simp [hr, List.any_cons]
    · rw [if_neg hr]
      by_cases ht : t.any (fun r => r.wrestler_id = i)
      · simp only [List.map_cons, ih, ht, if_true, List.any_cons]
        simp [hr, ht]
      · simp only [List.map_cons, ih, ht, if_false, List.any_cons]
        simp [hr, ht]

/-- `record_seen_wrestler` preserves uniqueness of the stored ids. -/
theorem record_seen_nodup (i : String) (j : Nat) (db : Db)
    (h : (db.seen.map fun r => r.wrestler_id).Nodup) :
    ((record_seen_wrestler i j db).seen.map fun r => r.wrestler_id).Nodup := by
  show ((recordSeenRows i j db.seen).map fun r => r.wrestler_id).Nodup
  rw [recordSeenRows_ids]
  split
  · exact h
  · rename_i hany
    rw [List.nodup_append]
    refine ⟨h, List.nodup_singleton i, ?_⟩
    intro x hx hx'
    rw [List.mem_singleton] at hx'
    subst hx'
    rw [List.mem_map] at hx
    obtain ⟨row, hrow, hid⟩ := hx
    exact hany (by simp only [List.any_eq_true, decide_eq_true_eq]; exact ⟨row, hrow, hid⟩)

/-- `mark_wrestler_processed` keeps the list of stored ids. -/
theorem mark_processed_ids (i : String) (db : Db) :
    ((mark_wrestler_processed i db).seen.map fun r => r.wrestler_id) =
      db.seen.map fun r => r.wrestler_id := by
  unfold mark_wrestler_processed
  dsimp only
  rw [List.map_map]
  refine List.map_congr_left fun r _ => ?_
  simp only [Function.comp]
  split <;> rfl

/-- With unique ids, recording an already-present wrestler at a depth no
smaller than the stored one changes nothing. -/
theorem recordSeenRows_noop (i : String) (k : Nat) :
    ∀ l : List SeenRow, (l.map fun r => r.wrestler_id).Nodup →
      (∃ row ∈ l, row.wrestler_id = i ∧ row.depth ≤ k) →
      recordSeenRows i k l = l := by
  intro l
  induction l with
  | nil => rintro _ ⟨row, hrow, _⟩; cases hrow
  | cons r t ih =>
    rintro hnd ⟨row, hrow, hid, hdep⟩
    unfold recordSeenRows
    by_cases hr : r.wrestler_id = i
    · rw [if_pos hr]
      have hrowr : row = r := by
        rcases List.mem_cons.mp hrow with rfl | hrow'
        · rfl
        · exfalso
          rw [List.map_cons, List.nodup_cons] at hnd
          exact hnd.1 (by
            rw [hr, ← hid]
            exact List.mem_map_of_mem _ hrow')
      subst hrowr
      rw [min_eq_left hdep]
    · rw [if_neg hr]
      have hrow' : row ∈ t := by
        rcases List.mem_cons.mp hrow with rfl | hrow'
        · exact absurd hid hr
        · exact hrow'
      rw [List.map_cons, List.nodup_cons] at hnd
      rw [ih hnd.2 ⟨row, hrow', hid, hdep⟩]

end Store


namespace Crawler

/-- An opponent step never touches the processed set or the fetch log. -/
theorem oppStep_processed_fetchLog (depth d : Nat) (acc : CrawlMem) (o : String) :
    (oppStep depth d acc o).processed = acc.processed ∧
      (oppStep depth d acc o).fetchLog = acc.fetchLog := by
  unfold oppStep
  constructor <;>
  · split
    · rfl
    · dsimp only
      split <;> rfl

/-- An empty deque ends the loop at once with the current state. -/
theorem crawlLoop_nil (pages : String → Page × List Page)
    (parseIso : String → Option Int) (depth : Nat) (aF : Option (List String))
    (sd ed : Option String) (m : CrawlMem) (h : m.queue = []) :
    ∀ fuel, crawlLoop pages parseIso depth aF sd ed fuel m = some m := by
  intro fuel
  cases fuel with
  | zero => simp [crawlLoop, h]
  | succ f => simp only [crawlLoop, h]

/-- A loop run that finishes also finishes, with the same state, on any
larger fuel. -/
theorem crawlLoop_mono (pages : String → Page × List Page)
    (parseIso : String → Option Int) (depth : Nat) (aF : Option (List String))
    (sd ed : Option String) :
    ∀ (fuel : Nat) (m r : CrawlMem),
      crawlLoop pages parseIso depth aF sd ed fuel m = some r →
      ∀ g, fuel ≤ g → crawlLoop pages parseIso depth aF sd ed g m = some r := by
  intro fuel
  induction fuel with
  | zero =>
    intro m r h g _
    rw [crawlLoop] at h
    split at h
    · cases h
      exact crawlLoop_nil pages parseIso depth aF sd ed m
        (List.isEmpty_iff.mp (by assumption)) g
    · cases h
  | succ f ih =>
    intro m r h g hg
    rcases Nat.exists_eq_add_of_le hg with ⟨e, rfl⟩
    rcases e with _ | e'
    · exact h
    · rw [show f + 1 + (e' + 1) = (f + e') + 1 + 1 from by omega]
      rcases hq : m.queue with _ | ⟨⟨w, d⟩, rest⟩ <;>
        rw [crawlLoop, hq] at h <;> rw [crawlLoop, hq]
      · exact h
      · dsimp only at h ⊢
        by_cases h1 : depth ≤ d
        · rw [if_pos h1] at h ⊢
          exact ih _ r h _ (by omega)
        · rw [if_neg h1] at h ⊢
          by_cases h2 : w ∈ m.processed
          · rw [if_pos h2] at h ⊢
            exact ih _ r h _ (by omega)
          · rw [if_neg h2] at h ⊢
            exact ih _ r h _ (by omega)

/-- A predicate on the store closed under every operation the main loop
performs holds of the final store. -/
theorem crawlLoop_db_invariant (pages : String → Page × List Page)
    (parseIso : String → Option Int) (depth : Nat) (aF : Option (List String))
    (sd ed : Option String) (P : Store.Db → Prop)
    (hrem : ∀ w db, P db → P (Store.remove_from_queue w db))
    (hmark : ∀ w db, P db → P (Store.mark_wrestler_processed w db))
    (hrec : ∀ o k db, P db → P (Store.record_seen_wrestler o k db))
    (henq : ∀ o k db, P db → P (Store.enqueue_wrestler o k db))
    (hdl : ∀ w db, P db → P ((download_matches pages parseIso w aF sd ed db).2)) :
    ∀ (fuel : Nat) (m r : CrawlMem),
      crawlLoop pages parseIso depth aF sd ed fuel m = some r → P m.db → P r.db := by
  intro fuel
  induction fuel with
  | zero =>
    intro m r h hm
    rw [crawlLoop] at h
    split at h
    · cases h; exact hm
    · cases h
  | succ f ih =>
    intro m r h hm
    rcases hq : m.queue with _ | ⟨⟨w, d⟩, rest⟩ <;> rw [crawlLoop, hq] at h
    · cases h; exact hm
    · dsimp only at h
      by_cases h1 : depth ≤ d
      · rw [if_pos h1] at h
        exact ih _ r h (hrem w _ hm)
      · rw [if_neg h1] at h
        by_cases h2 : w ∈ m.processed
        · rw [if_pos h2] at h
          exact ih _ r h (hrem w _ hm)
        · rw [if_neg h2] at h
          refine ih _ r h (hrem w _ ?_)
          refine foldl_hold (oppStep depth d) (fun acc : CrawlMem => P acc.db)
            (fun b o hb => ?_) _ _ (hmark _ _ (hdl w _ hm))
          unfold oppStep
          by_cases ho : o ∈ b.seen
          · rw [if_pos ho]; exact hb
          · rw [if_neg ho]
            dsimp only
            by_cases hd : d + 1 ≤ depth
            · rw [if_pos hd]
              exact henq _ _ _ (hrec _ _ _ hb)
            · rw [if_neg hd]
              exact hrec _ _ _ hb

/-- The opponent fold never touches the processed set or the fetch log. -/
theorem oppFold_processed_fetchLog (depth d : Nat) (os : List String)
    (acc : CrawlMem) :
    (os.foldl (oppStep depth d) acc).processed = acc.processed ∧
      (os.foldl (oppStep depth d) acc).fetchLog = acc.fetchLog := by
  refine foldl_hold (oppStep depth d)
    (fun b : CrawlMem => b.processed = acc.processed ∧ b.fetchLog = acc.fetchLog)
    (fun b o hb => ?_) os acc ⟨rfl, rfl⟩
  obtain ⟨g1, g2⟩ := oppStep_processed_fetchLog depth d b o
  exact ⟨g1.trans hb.1, g2.trans hb.2⟩

/-- The loop only appends to the fetch log. -/
theorem crawlLoop_fetchLog (pages : String → Page × List Page)
    (parseIso : String → Option Int) (depth : Nat) (aF : Option (List String))
    (sd ed : Option String) :
    ∀ (fuel : Nat) (m r : CrawlMem),
      crawlLoop pages parseIso depth aF sd ed fuel m = some r →
      ∃ t, r.fetchLog = m.fetchLog ++ t := by
  intro fuel
  induction fuel with
  | zero =>
    intro m r h
    rw [crawlLoop] at h
    split at h
    · cases h; exact ⟨[], (List.append_nil _).symm⟩
    · cases h
  | succ f ih =>
    intro m r h
    rcases hq : m.queue with _ | ⟨⟨w, d⟩, rest⟩ <;> rw [crawlLoop, hq] at h
    · cases h; exact ⟨[], (List.append_nil _).symm⟩
    · dsimp only at h
      by_cases h1 : depth ≤ d
      · rw [if_pos h1] at h
        obtain ⟨t, ht⟩ := ih _ r h
        exact ⟨t, ht⟩
      · rw [if_neg h1] at h
        by_cases h2 : w ∈ m.processed
        · rw [if_pos h2] at h
          obtain ⟨t, ht⟩ := ih _ r h
          exact ⟨t, ht⟩
        · rw [if_neg h2] at h
          obtain ⟨t, ht⟩ := ih _ r h
          refine ⟨[w] ++ t, ?_⟩
          rw [ht]
          show ((download_matches pages parseIso w aF sd ed m.db).1.foldl
            (oppStep depth d) _ : CrawlMem).fetchLog ++ t = _
          rw [(oppFold_processed_fetchLog depth d _ _).2]
          dsimp only
          rw [List.append_assoc]

end Crawler

namespace Crawler

/-- Every store enqueue is mirrored in the in-memory deque, so when the
loop drains the deque the persisted queue is empty as well. -/
theorem crawlLoop_queue_empty (pages : String → Page × List Page)
    (parseIso : String → Option Int) (depth : Nat) (aF : Option (List String))
    (sd ed : Option String) :
    ∀ (fuel : Nat) (m r : CrawlMem),
      crawlLoop pages parseIso depth aF sd ed fuel m = some r →
      (∀ x ∈ m.db.queue, x.1 ∈ m.queue.map Prod.fst) →
      r.db.queue = [] := by
  intro fuel
  induction fuel with
  | zero =>
    intro m r h hsub
    rw [crawlLoop] at h
    split at h
    · cases h
      rename_i hemp
      rw [List.isEmpty_iff.mp hemp] at hsub
      refine List.eq_nil_iff_forall_not_mem.mpr fun x hx => ?_
      have := hsub x hx
      simp at this
    · cases h
  | succ f ih =>
    intro m r h hsub
    rcases hq : m.queue with _ | ⟨⟨w, d⟩, rest⟩ <;> rw [crawlLoop, hq] at h
    · cases h
      rw [hq] at hsub
      refine List.eq_nil_iff_forall_not_mem.mpr fun x hx => ?_
      have := hsub x hx
      simp at this
    · rw [hq] at hsub
      dsimp only at h
      have hpop : ∀ x ∈ (Store.remove_from_queue w m.db).queue,
          x.1 ∈ rest.map Prod.fst := by
        intro x hx
        unfold Store.remove_from_queue at hx
        rw [List.mem_filter] at hx
        have hm := hsub x hx.1
        rw [List.map_cons, List.mem_cons] at hm
        rcases hm with hm | hm
        · exfalso
          have : ¬ x.1 = w := by simpa using hx.2
          exact this hm
        · exact hm
      by_cases h1 : depth ≤ d
      · rw [if_pos h1] at h
        exact ih _ r h hpop
      · rw [if_neg h1] at h
        by_cases h2 : w ∈ m.processed
        · rw [if_pos h2] at h
          exact ih _ r h hpop
        · rw [if_neg h2] at h
          unfold fetchStep at h
          dsimp only at h
          refine ih _ r h ?_
          -- the fold keeps every persisted queue id either equal to the
          -- wrestler being expanded or present in the in-memory deque
          have hLoop := foldl_hold (oppStep depth d)
            (fun acc : CrawlMem =>
              ∀ x ∈ acc.db.queue, x.1 = w ∨ x.1 ∈ acc.queue.map Prod.fst)
            (fun b o hb => ?step)
            (download_matches pages parseIso w aF sd ed m.db).1
            { m with
              queue := rest,
              processed := m.processed ++ [w],
              fetchLog := m.fetchLog ++ [w],
              db := Store.mark_wrestler_processed w
                (download_matches pages parseIso w aF sd ed m.db).2 }
            ?base
          case base =>
            intro x hx
            have hx' : x ∈ m.db.queue := by
              have hq1 : (Store.mark_wrestler_processed w
                  (download_matches pages parseIso w aF sd ed m.db).2).queue =
                  m.db.queue :=
                (download_matches_frontier pages parseIso w aF sd ed m.db).2.1
              rw [hq1] at hx
              exact hx
            have hm := hsub x hx'
            rw [List.map_cons, List.mem_cons] at hm
            exact hm
          case step =>
            unfold oppStep
            by_cases ho : o ∈ b.seen
            · rw [if_pos ho]; exact hb
            · rw [if_neg ho]
              dsimp only
              by_cases hd : d + 1 ≤ depth
              · rw [if_pos hd]
                intro x hx
                dsimp only at hx
                unfold Store.enqueue_wrestler at hx
                dsimp only at hx
                rw [List.mem_append] at hx
                rcases hx with hx | hx
                · rw [List.mem_filter] at hx
                  rcases hb x hx.1 with hw | hmem
                  · exact Or.inl hw
                  · exact Or.inr (by
                      dsimp only
                      rw [List.map_append, List.mem_append]
                      exact Or.inl hmem)
                · rw [List.mem_singleton] at hx
                  subst hx
                  exact Or.inr (by
                    dsimp only
                    rw [List.map_append, List.mem_append]
                    exact Or.inr (by simp))
              · rw [if_neg hd]
                intro x hx
                exact hb x hx
          intro x hx
          unfold Store.remove_from_queue at hx
          dsimp only at hx
          rw [List.mem_filter] at hx
          rcases hLoop x hx.1 with hw | hmem
          · exfalso
            have : ¬ x.1 = w := by simpa using hx.2
            exact this hw
          · exact hmem

end Crawler

/-- Membership in the insertion-order dedup fold. -/
theorem mem_dedup_fold (l : List String) :
    ∀ (a : List String) (x : String),
      (x ∈ l.foldl (fun acc x => if x ∈ acc then acc else acc ++ [x]) a) ↔
        (x ∈ a ∨ x ∈ l) := by
  induction l with
  | nil => intro a x; simp
  | cons y t ih =>
    intro a x
    rw [List.foldl_cons]
    by_cases hy : y ∈ a
    · rw [if_pos hy, ih]
      constructor
      · rintro (h | h)
        · exact Or.inl h
        · exact Or.inr (List.mem_cons_of_mem y h)
      · rintro (h | h)
        · exact Or.inl h
        · rcases List.mem_cons.mp h with rfl | h
          · exact Or.inl hy
          · exact Or.inr h
    · rw [if_neg hy, ih]
      constructor
      · rintro (h | h)
        · rw [List.mem_append] at h
          rcases h with h | h
          · exact Or.inl h
          · rw [List.mem_singleton] at h
            exact Or.inr (h ▸ List.mem_cons_self y t)
        · exact Or.inr (List.mem_cons_of_mem y h)
      · rintro (h | h)
        · exact Or.inl (by rw [List.mem_append]; exact Or.inl h)
        · rcases List.mem_cons.mp h with rfl | h
          · exact Or.inl (by rw [List.mem_append]; exact Or.inr (List.mem_singleton_self x))
          · exact Or.inr h

namespace Crawler

/-- `crawlSetup` on a fresh store: the deque holds exactly the seed at
depth 0, all in-memory sets are empty, and the store records the crawler
state and the enqueued seed. -/
theorem crawlSetup_empty (seed : String) (depth : Nat) :
    crawlSetup seed depth false Store.emptyDb =
      ⟨[(seed, 0)], [], [], [], [],
        ⟨some (seed, depth), [(seed, 0)], [], [], [], [], [], []⟩⟩ := by
  show setupRest seed depth 0 false (decide (0 < depth))
      (Store.upsert_crawler_state seed depth Store.emptyDb) = _
  cases hb : (decide (0 < depth)) <;> rfl

/-- `crawlSetup` resumed on a store persisted with the same seed and depth
and an empty queue: only the seed is in the deque, and Seen, depths and
Processed are loaded from the store with the seed discarded. -/
theorem crawlSetup_resume (seed : String) (depth : Nat) (db : Store.Db)
    (hcs : db.crawlerState = some (seed, depth)) (hq : db.queue = []) :
    crawlSetup seed depth false db =
      ⟨[(seed, 0)],
       (((Store.get_seen_wrestlers db).map fun x => x.1).foldl
          (fun acc x => if x ∈ acc then acc else acc ++ [x]) []).filter
         (fun x => x ≠ seed),
       (Store.get_seen_wrestlers db).filter (fun x => x.1 ≠ seed),
       ((Store.get_processed_wrestlers db).foldl
          (fun acc x => if x ∈ acc then acc else acc ++ [x]) []).filter
         (fun x => x ≠ seed),
       [],
       { db with crawlerState := some (seed, depth), queue := [(seed, 0)] }⟩ := by
  rcases db with ⟨cs, q, sn, wr, tm, ev, mr, fe⟩
  obtain rfl : cs = some (seed, depth) := hcs
  obtain rfl : q = [] := hq
  show setupRest seed depth depth (decide (seed ≠ seed)) (decide (depth < depth))
      (Store.upsert_crawler_state seed depth
        ⟨some (seed, depth), [], sn, wr, tm, ev, mr, fe⟩) = _
  rw [show (decide (seed ≠ seed)) = false from by simp,
    show (decide (depth < depth)) = false from by simp]
  rfl

end Crawler

namespace Crawler

/-- An opponent step can only extend the in-memory Seen set, and afterwards
contains the opponent just handled. -/
theorem oppStep_seen (depth d : Nat) (acc : CrawlMem) (o : String) :
    (∀ x ∈ acc.seen, x ∈ (oppStep depth d acc o).seen) ∧
      o ∈ (oppStep depth d acc o).seen := by
  unfold oppStep
  by_cases ho : o ∈ acc.seen
  · rw [if_pos ho]
    exact ⟨fun x hx => hx, ho⟩
  · rw [if_neg ho]
    dsimp only
    by_cases hd : d + 1 ≤ depth
    · rw [if_pos hd]
      exact ⟨fun x hx => List.mem_append_left _ hx,
        List.mem_append_right _ (List.mem_singleton_self o)⟩
    · rw [if_neg hd]
      exact ⟨fun x hx => List.mem_append_left _ hx,
        List.mem_append_right _ (List.mem_singleton_self o)⟩

/-- An opponent step keeps the invariant that every member of the Seen set
has a seen row of depth at most `d + 1`. -/
theorem oppStep_seen_rows (depth d : Nat) (acc : CrawlMem) (o : String)
    (h : ∀ x ∈ acc.seen, SeenLE acc.db x (d + 1)) :
    ∀ x ∈ (oppStep depth d acc o).seen, SeenLE (oppStep depth d acc o).db x (d + 1) := by
  unfold oppStep
  by_cases ho : o ∈ acc.seen
  · rw [if_pos ho]; exact h
  · rw [if_neg ho]
    dsimp only
    by_cases hd : d + 1 ≤ depth
    · rw [if_pos hd]
      intro x hx
      rcases List.mem_append.mp hx with hx | hx
      · exact Store.recordSeenRows_SeenLE o (d + 1) x (d + 1) _ (h x hx)
      · rw [List.mem_singleton] at hx
        subst hx
        exact Store.recordSeenRows_SeenLE_self x (d + 1) acc.db.seen
    · rw [if_neg hd]
      intro x hx
      rcases List.mem_append.mp hx with hx | hx
      · exact Store.recordSeenRows_SeenLE o (d + 1) x (d + 1) _ (h x hx)
      · rw [List.mem_singleton] at hx
        subst hx
        exact Store.recordSeenRows_SeenLE_self x (d + 1) acc.db.seen

/-- After the opponent fold, every opponent of the list has a seen row of
depth at most `d + 1`, provided members of the starting Seen set already
had one. -/
theorem oppFold_seen_rows (depth d : Nat) (os : List String) :
    ∀ (acc : CrawlMem), (∀ x ∈ acc.seen, SeenLE acc.db x (d + 1)) →
      ∀ o ∈ os, SeenLE ((os.foldl (oppStep depth d) acc)).db o (d + 1) := by
  have hmem : ∀ (os : List String) (acc : CrawlMem) (x : String), x ∈ acc.seen →
      x ∈ (os.foldl (oppStep depth d) acc).seen := by
    intro os
    induction os with
    | nil => intro acc x hx; exact hx
    | cons o t ih =>
      intro acc x hx
      rw [List.foldl_cons]
      exact ih _ x ((oppStep_seen depth d acc o).1 x hx)
  have hinv : ∀ (os : List String) (acc : CrawlMem),
      (∀ x ∈ acc.seen, SeenLE acc.db x (d + 1)) →
      ∀ x ∈ (os.foldl (oppStep depth d) acc).seen,
        SeenLE ((os.foldl (oppStep depth d) acc)).db x (d + 1) := by
    intro os
    induction os with
    | nil => intro acc h; exact h
    | cons o t ih =>
      intro acc h
      rw [List.foldl_cons]
      exact ih _ (oppStep_seen_rows depth d acc o h)
  intro acc h o ho
  induction os generalizing acc with
  | nil => cases ho
  | cons o' t ih =>
    rw [List.foldl_cons]
    rcases List.mem_cons.mp ho with rfl | ho'
    · exact hinv t _ (oppStep_seen_rows depth d acc _ h) o
        (hmem t _ o ((oppStep_seen depth d acc _).2))
    · exact ih _ (oppStep_seen_rows depth d acc o' h) ho'

/-- The opponent fold is the identity when every opponent is already in the
Seen set. -/
theorem oppFold_all_seen (depth d : Nat) (os : List String) :
    ∀ acc : CrawlMem, (∀ o ∈ os, o ∈ acc.seen) →
      os.foldl (oppStep depth d) acc = acc := by
  induction os with
  | nil => intro acc _; rfl
  | cons o t ih =>
    intro acc h
    rw [List.foldl_cons]
    rw [show oppStep depth d acc o = acc from by
      unfold oppStep
      rw [if_pos (h o (List.mem_cons_self o t))]]
    exact ih acc fun o' ho' => h o' (List.mem_cons_of_mem o ho')

/-- The opponent fold of a resumed crawl of the same seed: every opponent
other than the seed is already in Seen, and a rediscovered seed only
re-enqueues itself at depth 1, leaving the seen rows and matches table
unchanged. -/
theorem oppFold_resume (depth : Nat) (seed : String) (os : List String)
    (hdepth : 1 ≤ depth) :
    ∀ acc : CrawlMem,
      (∀ o ∈ os, o ≠ seed → o ∈ acc.seen) →
      seed ∉ acc.seen →
      (seed ∈ os → ∃ row ∈ acc.db.seen, row.wrestler_id = seed ∧ row.depth ≤ 1) →
      ((acc.db.seen.map fun r => r.wrestler_id).Nodup) →
      (∀ x ∈ acc.db.queue, x.1 = seed) →
      ((os.foldl (oppStep depth 0) acc).db.seen = acc.db.seen ∧
       (os.foldl (oppStep depth 0) acc).db.match_rows = acc.db.match_rows ∧
       (∀ x ∈ (os.foldl (oppStep depth 0) acc).db.queue, x.1 = seed) ∧
       ((os.foldl (oppStep depth 0) acc).queue = acc.queue ∨
        (os.foldl (oppStep depth 0) acc).queue = acc.queue ++ [(seed, 1)])) := by
  induction os with
  | nil =>
    intro acc _ _ _ _ hq
    exact ⟨rfl, rfl, hq, Or.inl rfl⟩
  | cons o t ih =>
    intro acc hseen hseedseen hrow hnodup hq
    rw [List.foldl_cons]
    by_cases ho : o ∈ acc.seen
    · rw [show oppStep depth 0 acc o = acc from by
        unfold oppStep
        rw [if_pos ho]]
      exact ih acc (fun o' ho' => hseen o' (List.mem_cons_of_mem o ho'))
        hseedseen (fun hs => hrow (List.mem_cons_of_mem o hs)) hnodup hq
    · have hos : o = seed := by
        by_contra hne
        exact ho (hseen o (List.mem_cons_self o t) hne)
      subst hos
      obtain ⟨row, hrmem, hrid, hrdep⟩ := hrow (List.mem_cons_self o t)
      have hrec : Store.record_seen_wrestler o 1 acc.db = acc.db := by
        unfold Store.record_seen_wrestler
        rw [Store.recordSeenRows_noop o 1 acc.db.seen hnodup ⟨row, hrmem, hrid, hrdep⟩]
      have hstep : oppStep depth 0 acc o =
          { acc with
            seen := acc.seen ++ [o],
            depths := acc.depths ++ [(o, 1)],
            queue := acc.queue ++ [(o, 1)],
            db := Store.enqueue_wrestler o 1 acc.db } := by
        unfold oppStep
        rw [if_neg ho]
        dsimp only
        rw [if_pos hdepth, hrec]
      have hall : ∀ o' ∈ t, o' ∈
          ({ acc with
            seen := acc.seen ++ [o],
            depths := acc.depths ++ [(o, 1)],
            queue := acc.queue ++ [(o, 1)],
            db := Store.enqueue_wrestler o 1 acc.db } : CrawlMem).seen := by
        intro o' ho'
        dsimp only
        rcases eq_or_ne o' o with rfl | hne
        · exact List.mem_append_right _ (List.mem_singleton_self o')
        · exact List.mem_append_left _
            (hseen o' (List.mem_cons_of_mem o ho') hne)
      rw [hstep, oppFold_all_seen depth 0 t _ hall]
      refine ⟨rfl, rfl, ?_, Or.inr rfl⟩
      intro x hx
      dsimp only at hx
      unfold Store.enqueue_wrestler at hx
      dsimp only at hx
      rcases List.mem_append.mp hx with hx | hx
      · exact hq x (List.mem_filter.mp hx).1
      · rw [List.mem_singleton] at hx
        subst hx
        rfl

end Crawler

namespace Crawler

/-- An opponent step leaves the matches table of the store unchanged. -/
theorem oppStep_db_match_rows (depth d : Nat) (acc : CrawlMem) (o : String) :
    (oppStep depth d acc o).db.match_rows = acc.db.match_rows := by
  unfold oppStep
  split
  · rfl
  · dsimp only
    split <;> rfl

/-- The opponent fold leaves the matches table of the store unchanged. -/
theorem oppFold_db_match_rows (depth d : Nat) (os : List String) (acc : CrawlMem) :
    ((os.foldl (oppStep depth d) acc)).db.match_rows = acc.db.match_rows := by
  refine foldl_hold (oppStep depth d)
    (fun b : CrawlMem => b.db.match_rows = acc.db.match_rows)
    (fun b o hb => ?_) os acc rfl
  show (oppStep depth d b o).db.match_rows = acc.db.match_rows
  rw [oppStep_db_match_rows depth d b o]
  exact hb

/-- An entry that is out of depth or already processed is popped and
removed from the persisted queue, with nothing else changed. -/
theorem crawlLoop_pop (pages : String → Page × List Page)
    (parseIso : String → Option Int) (depth : Nat) (aF : Option (List String))
    (sd ed : Option String) (fuel : Nat) (m : CrawlMem) (w : String) (d : Nat)
    (rest : List (String × Nat)) (hq : m.queue = (w, d) :: rest)
    (hcond : depth ≤ d ∨ w ∈ m.processed) :
    crawlLoop pages parseIso depth aF sd ed (fuel + 1) m =
      crawlLoop pages parseIso depth aF sd ed fuel
        { m with queue := rest, db := Store.remove_from_queue w m.db } := by
  rw [crawlLoop, hq]
  dsimp only
  by_cases h1 : depth ≤ d
  · rw [if_pos h1]
  · rw [if_neg h1]
    rcases hcond with h | h
    · exact absurd h h1
    · rw [if_pos h]

end Crawler

namespace Crawler

/-- Unfolding one fetch iteration of the loop. -/
theorem crawlLoop_fetch (pages : String → Page × List Page)
    (parseIso : String → Option Int) (depth : Nat) (aF : Option (List String))
    (sd ed : Option String) (fuel : Nat) (m : CrawlMem) (w : String) (d : Nat)
    (rest : List (String × Nat)) (hq : m.queue = (w, d) :: rest)
    (hd : ¬ depth ≤ d) (hp : w ∉ m.processed) :
    crawlLoop pages parseIso depth aF sd ed (fuel + 1) m =
      crawlLoop pages parseIso depth aF sd ed fuel
        (fetchStep pages parseIso depth aF sd ed w d rest m) := by
  rw [crawlLoop, hq]
  dsimp only
  rw [if_neg hd, if_neg hp]

/-- A fetch iteration appends the fetched wrestler to the fetch log and the
processed set. -/
theorem fetchStep_fetchLog (pages : String → Page × List Page)
    (parseIso : String → Option Int) (depth : Nat) (aF : Option (List String))
    (sd ed : Option String) (w : String) (d : Nat) (rest : List (String × Nat))
    (m : CrawlMem) :
    (fetchStep pages parseIso depth aF sd ed w d rest m).fetchLog =
        m.fetchLog ++ [w] ∧
      (fetchStep pages parseIso depth aF sd ed w d rest m).processed =
        m.processed ++ [w] := by
  unfold fetchStep
  dsimp only
  obtain ⟨h1, h2⟩ := oppFold_processed_fetchLog depth d
    (download_matches pages parseIso w aF sd ed m.db).1
    { m with
      queue := rest,
      processed := m.processed ++ [w],
      fetchLog := m.fetchLog ++ [w],
      db := Store.mark_wrestler_processed w
        (download_matches pages parseIso w aF sd ed m.db).2 }
  exact ⟨h2, h1⟩

/-- The matches table after a fetch iteration is the insert fold of all
rows the pages of the fetched wrestler attempt. -/
theorem fetchStep_match_rows (pages : String → Page × List Page)
    (parseIso : String → Option Int) (depth : Nat) (aF : Option (List String))
    (sd ed : Option String) (w : String) (d : Nat) (rest : List (String × Nat))
    (m : CrawlMem) :
    (fetchStep pages parseIso depth aF sd ed w d rest m).db.match_rows =
      (attemptsOf pages parseIso w aF sd ed).foldl
        (fun ms row => insMatchRows row ms) m.db.match_rows := by
  unfold fetchStep
  dsimp only
  unfold Store.remove_from_queue
  dsimp only
  rw [oppFold_db_match_rows]
  dsimp only
  unfold Store.mark_wrestler_processed
  dsimp only
  rw [download_matches_match_rows]

/-- After a fetch iteration, every opponent of the fetched wrestler has a
seen row of depth at most `d + 1`, provided every member of the starting
Seen set already had one. -/
theorem fetchStep_SeenLE (pages : String → Page × List Page)
    (parseIso : String → Option Int) (depth : Nat) (aF : Option (List String))
    (sd ed : Option String) (w : String) (d : Nat) (rest : List (String × Nat))
    (m : CrawlMem) (h : ∀ x ∈ m.seen, SeenLE m.db x (d + 1)) :
    ∀ o ∈ oppsOf pages parseIso w aF sd ed,
      SeenLE (fetchStep pages parseIso depth aF sd ed w d rest m).db o (d + 1) := by
  intro o ho
  rw [← download_matches_fst pages parseIso w aF sd ed m.db] at ho
  unfold fetchStep
  dsimp only
  have hrem : ∀ db : Store.Db,
      SeenLE db o (d + 1) → SeenLE (Store.remove_from_queue w db) o (d + 1) :=
    fun db hh => hh
  refine hrem _ ?_
  refine oppFold_seen_rows depth d _ _ ?_ o ho
  intro x hx
  have hx' : x ∈ m.seen := hx
  obtain ⟨row, hrmem, hrid, hrdep⟩ := h x hx'
  have hrmem' : row ∈ (download_matches pages parseIso w aF sd ed m.db).2.seen := by
    rw [(download_matches_frontier pages parseIso w aF sd ed m.db).2.2]
    exact hrmem
  exact Store.mark_processed_SeenLE w _ x (d + 1) ⟨row, hrmem', hrid, hrdep⟩

end Crawler

namespace Crawler

/-- A fetch iteration of the seed on a resumed crawl: the seen rows only
gain the processed stamp of the seed, the matches table and the persisted
queue do not grow, and at most a self-enqueue of the seed at depth 1 is
appended to the deque. -/
theorem fetchStep_resume (pages : String → Page × List Page)
    (parseIso : String → Option Int) (depth : Nat) (aF : Option (List String))
    (sd ed : Option String) (seed : String) (m : CrawlMem)
    (hdepth : 1 ≤ depth)
    (hseen : ∀ o ∈ oppsOf pages parseIso seed aF sd ed, o ≠ seed → o ∈ m.seen)
    (hseedseen : seed ∉ m.seen)
    (hrow : seed ∈ oppsOf pages parseIso seed aF sd ed →
      ∃ row ∈ m.db.seen, row.wrestler_id = seed ∧ row.depth ≤ 1)
    (hnodup : (m.db.seen.map fun r => r.wrestler_id).Nodup)
    (hq : ∀ x ∈ m.db.queue, x.1 = seed)
    (hatt : ∀ row ∈ attemptsOf pages parseIso seed aF sd ed,
      row.id ∈ matchIds m.db.match_rows) :
    (fetchStep pages parseIso depth aF sd ed seed 0 [] m).db.seen =
        (Store.mark_wrestler_processed seed m.db).seen ∧
      (fetchStep pages parseIso depth aF sd ed seed 0 [] m).db.match_rows =
        m.db.match_rows ∧
      (fetchStep pages parseIso depth aF sd ed seed 0 [] m).db.queue = [] ∧
      ((fetchStep pages parseIso depth aF sd ed seed 0 [] m).queue = [] ∨
        (fetchStep pages parseIso depth aF sd ed seed 0 [] m).queue = [(seed, 1)]) ∧
      (fetchStep pages parseIso depth aF sd ed seed 0 [] m).fetchLog =
        m.fetchLog ++ [seed] ∧
      (fetchStep pages parseIso depth aF sd ed seed 0 [] m).processed =
        m.processed ++ [seed] := by
  have hfront := download_matches_frontier pages parseIso seed aF sd ed m.db
  have hfst := download_matches_fst pages parseIso seed aF sd ed m.db
  have h1 : ∀ o ∈ (download_matches pages parseIso seed aF sd ed m.db).1,
      o ≠ seed → o ∈ m.seen := by
    rw [hfst]; exact hseen
  have h3 : seed ∈ (download_matches pages parseIso seed aF sd ed m.db).1 →
      ∃ row ∈ (Store.mark_wrestler_processed seed
        (download_matches pages parseIso seed aF sd ed m.db).2).seen,
        row.wrestler_id = seed ∧ row.depth ≤ 1 := by
    intro hs
    rw [hfst] at hs
    refine Store.mark_processed_SeenLE seed _ seed 1 ?_
    rw [hfront.2.2]
    exact hrow hs
  have h4 : ((Store.mark_wrestler_processed seed
      (download_matches pages parseIso seed aF sd ed m.db).2).seen.map
        fun r => r.wrestler_id).Nodup := by
    rw [Store.mark_processed_ids, hfront.2.2]
    exact hnodup
  have h5 : ∀ x ∈ (Store.mark_wrestler_processed seed
      (download_matches pages parseIso seed aF sd ed m.db).2).queue,
      x.1 = seed := by
    intro x hx
    have hx' : x ∈ (download_matches pages parseIso seed aF sd ed m.db).2.queue := hx
    rw [hfront.2.1] at hx'
    exact hq x hx'
  set FOLD := (download_matches pages parseIso seed aF sd ed m.db).1.foldl
    (oppStep depth 0)
    { m with
      queue := ([] : List (String × Nat)),
      processed := m.processed ++ [seed],
      fetchLog := m.fetchLog ++ [seed],
      db := Store.mark_wrestler_processed seed
        (download_matches pages parseIso seed aF sd ed m.db).2 } with hFOLD
  have hres := oppFold_resume depth seed
    (download_matches pages parseIso seed aF sd ed m.db).1 hdepth
    { m with
      queue := ([] : List (String × Nat)),
      processed := m.processed ++ [seed],
      fetchLog := m.fetchLog ++ [seed],
      db := Store.mark_wrestler_processed seed
        (download_matches pages parseIso seed aF sd ed m.db).2 }
    h1 hseedseen h3 h4 h5
  rw [← hFOLD] at hres
  obtain ⟨e1, e2, e3, e4⟩ := hres
  have hplog := oppFold_processed_fetchLog depth 0
    (download_matches pages parseIso seed aF sd ed m.db).1
    { m with
      queue := ([] : List (String × Nat)),
      processed := m.processed ++ [seed],
      fetchLog := m.fetchLog ++ [seed],
      db := Store.mark_wrestler_processed seed
        (download_matches pages parseIso seed aF sd ed m.db).2 }
  rw [← hFOLD] at hplog
  have hfs : fetchStep pages parseIso depth aF sd ed seed 0 [] m =
      { FOLD with db := Store.remove_from_queue seed FOLD.db } := by
    rw [hFOLD]
    rfl
  refine ⟨?_, ?_, ?_, ?_, ?_, ?_⟩
  · rw [hfs]
    show FOLD.db.seen = _
    rw [e1]
    show (Store.mark_wrestler_processed seed
      (download_matches pages parseIso seed aF sd ed m.db).2).seen = _
    unfold Store.mark_wrestler_processed
    dsimp only
    rw [hfront.2.2]
  · rw [hfs]
    show FOLD.db.match_rows = _
    rw [e2]
    show (download_matches pages parseIso seed aF sd ed m.db).2.match_rows = _
    rw [download_matches_match_rows]
    exact insFold_noop _ _ hatt
  · rw [hfs]
    show (Store.remove_from_queue seed FOLD.db).queue = []
    unfold Store.remove_from_queue
    dsimp only
    rw [List.filter_eq_nil_iff]
    intro a ha
    have := e3 a ha
    simp [this]
  · rw [hfs]
    show FOLD.queue = [] ∨ FOLD.queue = [(seed, 1)]
    rcases e4 with h | h
    · exact Or.inl h
    · exact Or.inr h
  · rw [hfs]
    show FOLD.fetchLog = _
    rw [hplog.2]
  · rw [hfs]
    show FOLD.processed = _
    rw [hplog.1]

end Crawler

namespace Crawler

/-- A resumed loop run that starts with only the seed in the deque, all
opponents already seen and all matches already stored: it completes within
three fuel, fetches exactly the seed and leaves seen rows and matches as a
single `mark_wrestler_processed` of the seed. -/
theorem crawlLoop_resume_run (pages : String → Page × List Page)
    (parseIso : String → Option Int) (depth : Nat) (aF : Option (List String))
    (sd ed : Option String) (seed : String) (sn : List String)
    (dn : List (String × Nat)) (pn : List String) (db2 : Store.Db) (e : Nat)
    (hdepth : 1 ≤ depth)
    (hpn : seed ∉ pn)
    (hseen : ∀ o ∈ oppsOf pages parseIso seed aF sd ed, o ≠ seed → o ∈ sn)
    (hseedseen : seed ∉ sn)
    (hrow : seed ∈ oppsOf pages parseIso seed aF sd ed →
      ∃ row ∈ db2.seen, row.wrestler_id = seed ∧ row.depth ≤ 1)
    (hnodup : (db2.seen.map fun r => r.wrestler_id).Nodup)
    (hq : ∀ x ∈ db2.queue, x.1 = seed)
    (hatt : ∀ row ∈ attemptsOf pages parseIso seed aF sd ed,
      row.id ∈ matchIds db2.match_rows) :
    ∃ fin : CrawlMem,
      crawlLoop pages parseIso depth aF sd ed (e + 3)
          (⟨[(seed, 0)], sn, dn, pn, [], db2⟩ : CrawlMem) = some fin ∧
        fin.fetchLog = [seed] ∧
        fin.db.seen = (Store.mark_wrestler_processed seed db2).seen ∧
        fin.db.match_rows = db2.match_rows := by
  have hstep := crawlLoop_fetch pages parseIso depth aF sd ed (e + 2)
    (⟨[(seed, 0)], sn, dn, pn, [], db2⟩ : CrawlMem) seed 0 [] rfl
    (by omega) hpn
  obtain ⟨s1, s2, s3, s4, s5, s6⟩ := fetchStep_resume pages parseIso depth aF sd ed
    seed (⟨[(seed, 0)], sn, dn, pn, [], db2⟩ : CrawlMem) hdepth hseen hseedseen
    hrow hnodup hq hatt
  rcases s4 with hq2 | hq2
  · refine ⟨_, ?_, ?_, s1, s2⟩
    · rw [show e + 3 = (e + 2) + 1 from rfl, hstep]
      exact crawlLoop_nil pages parseIso depth aF sd ed _ hq2 (e + 2)
    · rw [s5]
      rfl
  · refine ⟨{ fetchStep pages parseIso depth aF sd ed seed 0 []
        (⟨[(seed, 0)], sn, dn, pn, [], db2⟩ : CrawlMem) with
        queue := [],
        db := Store.remove_from_queue seed
          (fetchStep pages parseIso depth aF sd ed seed 0 []
            (⟨[(seed, 0)], sn, dn, pn, [], db2⟩ : CrawlMem)).db }, ?_, ?_, ?_, ?_⟩
    · rw [show e + 3 = (e + 2) + 1 from rfl, hstep,
        show e + 2 = (e + 1) + 1 from rfl,
        crawlLoop_pop pages parseIso depth aF sd ed (e + 1) _ seed 1 [] hq2
          (Or.inr (by
            rw [s6]
            exact List.mem_append_right _ (List.mem_singleton_self seed)))]
      exact crawlLoop_nil pages parseIso depth aF sd ed _ rfl (e + 1)
    · show (fetchStep pages parseIso depth aF sd ed seed 0 []
        (⟨[(seed, 0)], sn, dn, pn, [], db2⟩ : CrawlMem)).fetchLog = [seed]
      rw [s5]
      rfl
    · exact s1
    · exact s2

end Crawler

namespace Crawler

/-- C1 (amended): rerunning `crawl` with the same seed and depth and
`reset = False` after a completed first run from an empty store fetches
exactly the seed again (one wrestler, so at most as many page calls as the
first run and not zero), leaves the matches table exactly as the first run
left it, and leaves the seen rows equal to those of the first run with the
seed's row stamped processed; the rows are not necessarily byte-identical,
because the first run can leave the seed's rediscovered row unprocessed. -/
theorem C1_crawl_resumable (pages : String → Page × List Page)
    (parseIso : String → Option Int) (seed : String) (depth : Nat)
    (aw : Option (List String)) (sd ed : Option String)
    (fuel1 fuel2 : Nat) (r1 : CrawlResult)
    (hdepth : 1 ≤ depth) (hfuel2 : 3 ≤ fuel2)
    (h1 : crawl pages parseIso seed depth false aw sd ed fuel1 Store.emptyDb =
      some r1) :
    ∃ r2 : CrawlResult,
      crawl pages parseIso seed depth false aw sd ed fuel2 r1.db = some r2 ∧
        r2.fetchLog = [seed] ∧
        pageCalls pages r2.fetchLog ≤ pageCalls pages r1.fetchLog ∧
        r2.db.seen = (Store.mark_wrestler_processed seed r1.db).seen ∧
        r2.db.match_rows = r1.db.match_rows := by
  unfold crawl at h1
  rw [crawlSetup_empty] at h1
  rw [Option.map_eq_some'] at h1
  obtain ⟨m1, hm1, hr1⟩ := h1
  subst hr1
  rcases fuel1 with _ | f1
  · rw [crawlLoop] at hm1
    simp at hm1
  · have hCS : m1.db.crawlerState = some (seed, depth) := by
      have hdl : ∀ (w : String) (db : Store.Db), db.crawlerState = some (seed, depth) →
          (download_matches pages parseIso w (normalize_weight_filters aw) sd ed
            db).2.crawlerState = some (seed, depth) := by
        intro w db h
        rw [(download_matches_frontier pages parseIso w
          (normalize_weight_filters aw) sd ed db).1]
        exact h
      exact crawlLoop_db_invariant pages parseIso depth (normalize_weight_filters aw)
        sd ed (fun db => db.crawlerState = some (seed, depth))
        (fun w db h => h) (fun w db h => h) (fun o k db h => h) (fun o k db h => h)
        hdl (f1 + 1) _ m1 hm1 rfl
    have hQE : m1.db.queue = [] := by
      refine crawlLoop_queue_empty pages parseIso depth (normalize_weight_filters aw)
        sd ed (f1 + 1) _ m1 hm1 ?_
      intro x hx
      rcases List.mem_singleton.mp hx with rfl
      simp
    have hND : (m1.db.seen.map fun r => r.wrestler_id).Nodup := by
      have hmark : ∀ (w : String) (db : Store.Db),
          (db.seen.map fun r => r.wrestler_id).Nodup →
          ((Store.mark_wrestler_processed w db).seen.map
            fun r => r.wrestler_id).Nodup := by
        intro w db h
        rw [Store.mark_processed_ids]
        exact h
      have hdl : ∀ (w : String) (db : Store.Db),
          (db.seen.map fun r => r.wrestler_id).Nodup →
          ((download_matches pages parseIso w (normalize_weight_filters aw) sd ed
            db).2.seen.map fun r => r.wrestler_id).Nodup := by
        intro w db h
        rw [(download_matches_frontier pages parseIso w
          (normalize_weight_filters aw) sd ed db).2.2]
        exact h
      exact crawlLoop_db_invariant pages parseIso depth (normalize_weight_filters aw)
        sd ed (fun db => (db.seen.map fun r : Store.SeenRow => r.wrestler_id).Nodup)
        (fun w db h => h) hmark
        (fun o k db h => Store.record_seen_nodup o k db h)
        (fun o k db h => h) hdl (f1 + 1) _ m1 hm1 List.nodup_nil
    have hm2 := hm1
    rw [crawlLoop_fetch pages parseIso depth (normalize_weight_filters aw) sd ed f1
      (⟨[(seed, 0)], [], [], [], [],
        ⟨some (seed, depth), [(seed, 0)], [], [], [], [], [], []⟩⟩ : CrawlMem)
      seed 0 [] rfl (by omega) (List.not_mem_nil seed)] at hm2
    have hSeen1 : ∀ o ∈ oppsOf pages parseIso seed (normalize_weight_filters aw) sd ed,
        SeenLE m1.db o 1 := by
      have hdl : ∀ (w : String) (db : Store.Db),
          (∀ o ∈ oppsOf pages parseIso seed (normalize_weight_filters aw) sd ed,
            SeenLE db o 1) →
          ∀ o ∈ oppsOf pages parseIso seed (normalize_weight_filters aw) sd ed,
            SeenLE (download_matches pages parseIso w (normalize_weight_filters aw)
              sd ed db).2 o 1 := by
        intro w db h o ho
        obtain ⟨row, hrmem, hrid, hrdep⟩ := h o ho
        unfold SeenLE
        refine ⟨row, ?_, hrid, hrdep⟩
        rw [(download_matches_frontier pages parseIso w
          (normalize_weight_filters aw) sd ed db).2.2]
        exact hrmem
      have hmark : ∀ (w : String) (db : Store.Db),
          (∀ o ∈ oppsOf pages parseIso seed (normalize_weight_filters aw) sd ed,
            SeenLE db o 1) →
          ∀ o ∈ oppsOf pages parseIso seed (normalize_weight_filters aw) sd ed,
            SeenLE (Store.mark_wrestler_processed w db) o 1 :=
        fun w db h o ho => Store.mark_processed_SeenLE w db o 1 (h o ho)
      have hrec : ∀ (i : String) (k : Nat) (db : Store.Db),
          (∀ o ∈ oppsOf pages parseIso seed (normalize_weight_filters aw) sd ed,
            SeenLE db o 1) →
          ∀ o ∈ oppsOf pages parseIso seed (normalize_weight_filters aw) sd ed,
            SeenLE (Store.record_seen_wrestler i k db) o 1 :=
        fun i k db h o ho => Store.recordSeenRows_SeenLE i k o 1 db.seen (h o ho)
      have hbase := fetchStep_SeenLE pages parseIso depth (normalize_weight_filters aw)
        sd ed seed 0 []
        (⟨[(seed, 0)], [], [], [], [],
          ⟨some (seed, depth), [(seed, 0)], [], [], [], [], [], []⟩⟩ : CrawlMem)
        (fun x hx => absurd hx (List.not_mem_nil x))
      exact crawlLoop_db_invariant pages parseIso depth (normalize_weight_filters aw)
        sd ed (fun db => ∀ o ∈ oppsOf pages parseIso seed
            (normalize_weight_filters aw) sd ed, SeenLE db o 1)
        (fun w db h => h) hmark hrec (fun i k db h => h) hdl f1 _ m1 hm2 hbase
    have hAtt1 : ∀ row ∈ attemptsOf pages parseIso seed
        (normalize_weight_filters aw) sd ed,
        row.id ∈ matchIds m1.db.match_rows := by
      have hdl : ∀ (w : String) (db : Store.Db),
          (∀ row ∈ attemptsOf pages parseIso seed (normalize_weight_filters aw) sd ed,
            row.id ∈ matchIds db.match_rows) →
          ∀ row ∈ attemptsOf pages parseIso seed (normalize_weight_filters aw) sd ed,
            row.id ∈ matchIds (download_matches pages parseIso w
              (normalize_weight_filters aw) sd ed db).2.match_rows := by
        intro w db h row hrow
        rw [download_matches_match_rows]
        exact insFold_ids_mono _ _ _ (h row hrow)
      have hbase : ∀ row ∈ attemptsOf pages parseIso seed
          (normalize_weight_filters aw) sd ed,
          row.id ∈ matchIds (fetchStep pages parseIso depth
            (normalize_weight_filters aw) sd ed seed 0 []
            (⟨[(seed, 0)], [], [], [], [],
              ⟨some (seed, depth), [(seed, 0)], [], [], [], [], [], []⟩⟩ :
                CrawlMem)).db.match_rows := by
        rw [fetchStep_match_rows]
        intro row hrow
        exact insFold_ensures _ _ (attemptsOf_participants pages parseIso seed
          (normalize_weight_filters aw) sd ed) row hrow
      exact crawlLoop_db_invariant pages parseIso depth (normalize_weight_filters aw)
        sd ed (fun db => ∀ row ∈ attemptsOf pages parseIso seed
            (normalize_weight_filters aw) sd ed, row.id ∈ matchIds db.match_rows)
        (fun w db h => h) (fun w db h => h) (fun o k db h => h) (fun o k db h => h)
        hdl f1 _ m1 hm2 hbase
    obtain ⟨t1, ht1⟩ := crawlLoop_fetchLog pages parseIso depth
      (normalize_weight_filters aw) sd ed f1 _ m1 hm2
    have hlog1 : m1.fetchLog = [seed] ++ t1 := by
      rw [ht1, (fetchStep_fetchLog pages parseIso depth (normalize_weight_filters aw)
        sd ed seed 0 []
        (⟨[(seed, 0)], [], [], [], [],
          ⟨some (seed, depth), [(seed, 0)], [], [], [], [], [], []⟩⟩ : CrawlMem)).1]
      rfl
    have hseen2 : ∀ o ∈ oppsOf pages parseIso seed (normalize_weight_filters aw) sd ed,
        o ≠ seed →
        o ∈ ((((Store.get_seen_wrestlers m1.db).map fun x => x.1).foldl
            (fun acc x => if x ∈ acc then acc else acc ++ [x]) []).filter
          (fun x => x ≠ seed)) := by
      intro o ho hne
      obtain ⟨row, hrmem, hrid, _⟩ := hSeen1 o ho
      rw [List.mem_filter]
      refine ⟨?_, by simp [hne]⟩
      rw [mem_dedup_fold]
      refine Or.inr ?_
      unfold Store.get_seen_wrestlers
      rw [List.map_map, List.mem_map]
      exact ⟨row, hrmem, hrid⟩
    have hrow2 : seed ∈ oppsOf pages parseIso seed (normalize_weight_filters aw) sd ed →
        ∃ row ∈ ({ m1.db with crawlerState := some (seed, depth), queue := [(seed, 0)] } : Store.Db).seen,
          row.wrestler_id = seed ∧ row.depth ≤ 1 := fun hs => hSeen1 seed hs
    have hq2 : ∀ x ∈ ({ m1.db with crawlerState := some (seed, depth), queue := [(seed, 0)] } : Store.Db).queue, x.1 = seed := by
      intro x hx
      rcases List.mem_singleton.mp hx with rfl
      rfl
    obtain ⟨e, rfl⟩ : ∃ e, fuel2 = e + 3 := ⟨fuel2 - 3, by omega⟩
    obtain ⟨fin, hfin, hflog, hfseen, hfmatch⟩ :=
      crawlLoop_resume_run pages parseIso depth (normalize_weight_filters aw) sd ed
        seed
        ((((Store.get_seen_wrestlers m1.db).map fun x => x.1).foldl
            (fun acc x => if x ∈ acc then acc else acc ++ [x]) []).filter
          (fun x => x ≠ seed))
        ((Store.get_seen_wrestlers m1.db).filter (fun x => x.1 ≠ seed))
        (((Store.get_processed_wrestlers m1.db).foldl
            (fun acc x => if x ∈ acc then acc else acc ++ [x]) []).filter
          (fun x => x ≠ seed))
        ({ m1.db with crawlerState := some (seed, depth), queue := [(seed, 0)] })
        e hdepth (not_mem_filter_ne seed _) hseen2 (not_mem_filter_ne seed _)
        hrow2 hND hq2 hAtt1
    refine ⟨⟨fin.seen, fin.depths, fin.processed, fin.fetchLog, fin.db⟩,
      ?_, ?_, ?_, ?_, ?_⟩
    · show (crawlLoop pages parseIso depth (normalize_weight_filters aw) sd ed (e + 3)
          (crawlSetup seed depth false m1.db)).map
          (fun m => (⟨m.seen, m.depths, m.processed, m.fetchLog, m.db⟩ : CrawlResult)) =
          some ⟨fin.seen, fin.depths, fin.processed, fin.fetchLog, fin.db⟩
      rw [crawlSetup_resume seed depth m1.db hCS hQE, hfin]
      rfl
    · exact hflog
    · show pageCalls pages fin.fetchLog ≤ pageCalls pages m1.fetchLog
      rw [hflog, hlog1]
      unfold pageCalls
      rw [List.map_append, List.sum_append]
      exact Nat.le_add_right _ _
    · exact hfseen
    · exact hfmatch

end Crawler

namespace Crawler

/-- C1 counterexample: with one bout between the seed and one opponent and
depth 2, the first crawl completes, yet the resumed second crawl performs
one page fetch rather than zero, and it flips the seed's seen row to
processed, so the Seen rows after the two runs are not identical. -/
theorem C1_counterexample :
    crawl c1Pages c1Parse "a" 2 false none none none 9 Store.emptyDb =
        some c1R1 ∧
      crawl c1Pages c1Parse "a" 2 false none none none 9 c1R1.db = some c1R2 ∧
      pageCalls c1Pages c1R2.fetchLog ≠ 0 ∧
      c1R2.db.seen ≠ c1R1.db.seen := by
  decide

end Crawler

namespace Crawler

/-- C1 witness: the amended resumability theorem instantiated on the
fixture crawl of seed "a" at depth 2. -/
theorem C1_crawl_resumable_witness :
    ((1 : Nat) ≤ 2 ∧ (3 : Nat) ≤ 3 ∧
      crawl c1Pages c1Parse "a" 2 false none none none 9 Store.emptyDb =
        some c1R1) ∧
    ∃ r2 : CrawlResult,
      crawl c1Pages c1Parse "a" 2 false none none none 3 c1R1.db = some r2 ∧
        r2.fetchLog = ["a"] ∧
        pageCalls c1Pages r2.fetchLog ≤ pageCalls c1Pages c1R1.fetchLog ∧
        r2.db.seen = (Store.mark_wrestler_processed "a" c1R1.db).seen ∧
        r2.db.match_rows = c1R1.db.match_rows :=
  ⟨⟨by decide, by decide, by decide⟩,
    C1_crawl_resumable c1Pages c1Parse "a" 2 none none none 9 3 c1R1
      (by decide) (by decide) (by decide)⟩

end Crawler

namespace Rating

/-- The default RD does not exceed the cap. -/
theorem DEFAULT_RD_le : DEFAULT_RD ≤ MAX_RD := le_refl MAX_RD

/-- `apply_inactivity` keeps RD at or below the cap. -/
theorem apply_inactivity_rd_le (st : PState) (t : Nat) (h : st.rd ≤ MAX_RD) :
    (apply_inactivity st t).rd ≤ MAX_RD := by
  unfold apply_inactivity
  split
  · exact h
  · exact min_le_right _ _

/-- `stateOf` reads a state with RD at or below the cap out of an invariant
states function. -/
theorem stateOf_rd_le (s : String → Option PState) (id : String) (p : Nat)
    (h : RdInv s) : (stateOf s id p).rd ≤ MAX_RD := by
  unfold stateOf
  cases hs : s id with
  | none => exact DEFAULT_RD_le
  | some st => exact h id st hs

/-- `ensure_state` preserves the RD invariant. -/
theorem ensure_state_inv (s : String → Option PState) (id : String) (p : Nat)
    (h : RdInv s) : RdInv (ensure_state s id p) := by
  intro x st hx
  unfold ensure_state at hx
  split at hx
  · obtain rfl := Option.some.inj hx
    exact stateOf_rd_le s id p h
  · exact h x st hx

/-- One snapshot-loop step preserves the RD invariant. -/
theorem applySnapshotPass_inv (p : Nat) (acc : String → Option PState)
    (id : String) (h : RdInv acc) : RdInv (applySnapshotPass p acc id) := by
  intro x st hx
  unfold applySnapshotPass at hx
  split at hx
  · obtain rfl := Option.some.inj hx
    exact apply_inactivity_rd_le _ _
      (stateOf_rd_le _ _ _ (ensure_state_inv acc id p h))
  · exact ensure_state_inv acc id p h x st hx

/-- `update_player` returns an RD at or below the cap whenever the input
snapshot carries one. -/
theorem update_player_rd_le (fuel : Nat) (snapshot : Snapshot)
    (pairings : List (String × ℝ)) (opponents : String → Option Snapshot)
    (tau : ℝ) (h : snapshot.rd ≤ MAX_RD) :
    (update_player fuel snapshot pairings opponents tau).rd ≤ MAX_RD := by
  unfold update_player
  split
  · exact h
  · dsimp only
    split
    · exact h
    · exact min_le_right _ _

/-- The match-loop and snapshot-loop folds preserve the RD invariant. -/
theorem wsTwo_inv (p : Nat) (ms : List GMatch) (ws : String → Option PState)
    (h : RdInv ws) : RdInv (wsTwo p ms ws) := by
  refine foldl_hold (applySnapshotPass p) RdInv
    (fun b id hb => applySnapshotPass_inv p b id hb) _ _ ?_
  exact foldl_hold (ensurePair p) RdInv
    (fun b m hb => ensure_state_inv _ _ _ (ensure_state_inv _ _ _ hb)) ms ws h

/-- One period's weight-class processing preserves the RD invariant. -/
theorem processWeight_inv (fuel : Nat) (tau : ℝ) (p : Nat) (ms : List GMatch)
    (ws : String → Option PState) (h : RdInv ws) :
    RdInv (processWeight fuel tau p ms ws) := by
  intro x st hx
  unfold processWeight at hx
  split at hx
  · obtain rfl := Option.some.inj hx
    exact update_player_rd_le _ _ _ _ _ (stateOf_rd_le _ _ _ (wsTwo_inv p ms ws h))
  · exact wsTwo_inv p ms ws h x st hx

/-- Every state the period loop tracks has RD at or below the cap. -/
theorem glickoMainLoop_inv (fuel : Nat) (tau : ℝ)
    (grouped : Nat → List (String × List GMatch)) (total_periods : Nat) :
    ∀ w id st, glickoMainLoop fuel tau grouped total_periods w id = some st →
      st.rd ≤ MAX_RD := by
  unfold glickoMainLoop
  refine foldl_hold _
    (fun s : String → String → Option PState =>
      ∀ w id st, s w id = some st → st.rd ≤ MAX_RD)
    (fun b p hb => ?_) _ _ (fun w id st h => Option.noConfusion h)
  refine foldl_hold _
    (fun s : String → String → Option PState =>
      ∀ w id st, s w id = some st → st.rd ≤ MAX_RD)
    (fun b2 wg hb2 => ?_) _ _ hb
  intro w id st h
  dsimp only at h
  split at h
  · exact processWeight_inv fuel tau p wg.2 (b2 wg.1)
      (fun x s hx => hb2 wg.1 x s hx) id st h
  · exact hb2 w id st h

end Rating

namespace Rating

/-- C10: throughout a replay, every RD the replay reports is at most the
cap of 350: fresh states start at the default 350, `apply_inactivity`
clamps the inflated RD (also in the final pass), and `update_player`
returns the minimum of the new RD and the cap. -/
theorem C10_rd_bounded (fuel : Nat) (tau : ℝ)
    (grouped : Nat → List (String × List GMatch)) (total_periods : Nat)
    (w id : String) :
    rdOf (run_glicko fuel tau grouped total_periods) w id ≤ MAX_RD := by
  unfold rdOf run_glicko finalInactivityPass
  cases hs : glickoMainLoop fuel tau grouped total_periods w id with
  | none => exact DEFAULT_RD_le
  | some st =>
    exact apply_inactivity_rd_le st _
      (glickoMainLoop_inv fuel tau grouped total_periods w id st hs)

end Rating

namespace Rating

/-- C6: `run_glicko` ends with the final inactivity pass over every tracked
state, and that pass sends a state last updated before the final period to
the clamped inflation of the spec's formula: the new RD is
`min (sqrt (phi^2 + k sigma^2) * 173.7178) 350` with `phi` the old RD over
the scale and `k` the number of periods since the last update. -/
theorem C6_final_inactivity (fuel : Nat) (tau : ℝ)
    (grouped : Nat → List (String × List GMatch)) (total_periods : Nat)
    (states : String → String → Option PState) (final_idx : Nat)
    (w id : String) (st : PState)
    (h : states w id = some st) (hlt : st.last_period_index < final_idx) :
    run_glicko fuel tau grouped total_periods =
        finalInactivityPass (glickoMainLoop fuel tau grouped total_periods)
          (total_periods - 1) ∧
      finalInactivityPass states final_idx w id =
        some { st with
          rd := min (Real.sqrt ((st.rd / RATING_SCALE) * (st.rd / RATING_SCALE) +
            ((final_idx - st.last_period_index : Nat) : ℝ) * st.volatility *
              st.volatility) * RATING_SCALE) MAX_RD,
          last_period_index := final_idx } := by
  refine ⟨rfl, ?_⟩
  unfold finalInactivityPass
  rw [h]
  show some (apply_inactivity st final_idx) = _
  unfold apply_inactivity
  rw [if_neg (by omega)]

/-- C6 witness: the inactivity formula applied to a fresh state tracked at
period 0 and read at final period 1. -/
theorem C6_final_inactivity_witness :
    ((fun _ _ => some (⟨1500, 350, 0.06, 0, none, 0⟩ : PState)) "w" "a" =
        some (⟨1500, 350, 0.06, 0, none, 0⟩ : PState) ∧
      (0 : Nat) < 1) ∧
    (run_glicko 1 0.5 (fun _ => []) 1 =
        finalInactivityPass (glickoMainLoop 1 0.5 (fun _ => []) 1) (1 - 1) ∧
      finalInactivityPass (fun _ _ => some ⟨1500, 350, 0.06, 0, none, 0⟩) 1
          "w" "a" =
        some ⟨1500,
          min (Real.sqrt ((350 / RATING_SCALE) * (350 / RATING_SCALE) +
            ((1 : Nat) : ℝ) * 0.06 * 0.06) * RATING_SCALE) MAX_RD,
          0.06, 1, none, 0⟩) :=
  ⟨⟨rfl, by decide⟩,
    C6_final_inactivity 1 0.5 (fun _ => []) 1
      (fun _ _ => some ⟨1500, 350, 0.06, 0, none, 0⟩) 1 "w" "a"
      ⟨1500, 350, 0.06, 0, none, 0⟩ rfl (by decide)⟩

end Rating

namespace Rating

/-- Membership in the ordered set insertion. -/
theorem mem_addParticipant (acc : List String) (y x : String) :
    x ∈ addParticipant acc y ↔ x ∈ acc ∨ x = y := by
  unfold addParticipant
  split
  · rename_i hy
    constructor
    · exact Or.inl
    · rintro (h | rfl)
      · exact h
      · exact hy
  · rw [List.mem_append, List.mem_singleton]

/-- The ordered set insertion keeps the list duplicate-free. -/
theorem nodup_addParticipant (acc : List String) (y : String) (h : acc.Nodup) :
    (addParticipant acc y).Nodup := by
  unfold addParticipant
  split
  · exact h
  · rename_i hy
    rw [List.nodup_append]
    exact ⟨h, List.nodup_singleton y, fun x hx hx' =>
      hy ((List.mem_singleton.mp hx') ▸ hx)⟩

/-- Membership in the participant fold. -/
theorem mem_partFold (ms : List GMatch) :
    ∀ (acc : List String) (x : String),
      x ∈ ms.foldl (fun acc m => addParticipant (addParticipant acc m.winner_id)
          m.loser_id) acc ↔
        x ∈ acc ∨ ∃ m ∈ ms, x = m.winner_id ∨ x = m.loser_id := by
  induction ms with
  | nil => intro acc x; simp
  | cons m t ih =>
    intro acc x
    rw [List.foldl_cons, ih, mem_addParticipant, mem_addParticipant]
    constructor
    · rintro (((h | h) | h) | ⟨m', hm', h⟩)
      · exact Or.inl h
      · exact Or.inr ⟨m, List.mem_cons_self m t, Or.inl h⟩
      · exact Or.inr ⟨m, List.mem_cons_self m t, Or.inr h⟩
      · exact Or.inr ⟨m', List.mem_cons_of_mem m hm', h⟩
    · rintro (h | ⟨m', hm', h⟩)
      · exact Or.inl (Or.inl (Or.inl h))
      · rcases List.mem_cons.mp hm' with rfl | hm'
        · rcases h with h | h
          · exact Or.inl (Or.inl (Or.inr h))
          · exact Or.inl (Or.inr h)
        · exact Or.inr ⟨m', hm', h⟩

/-- A wrestler appears in `per_player` exactly when a match of the period
names it. -/
theorem mem_participantsOf (ms : List GMatch) (x : String) :
    x ∈ participantsOf ms ↔ ∃ m ∈ ms, x = m.winner_id ∨ x = m.loser_id := by
  unfold participantsOf
  rw [mem_partFold]
  simp

/-- The participant list is duplicate-free. -/
theorem nodup_partFold (ms : List GMatch) :
    ∀ acc : List String, acc.Nodup →
      (ms.foldl (fun acc m => addParticipant (addParticipant acc m.winner_id)
        m.loser_id) acc).Nodup := by
  induction ms with
  | nil => intro acc h; exact h
  | cons m t ih =>
    intro acc h
    rw [List.foldl_cons]
    exact ih _ (nodup_addParticipant _ _ (nodup_addParticipant _ _ h))

theorem nodup_participantsOf (ms : List GMatch) : (participantsOf ms).Nodup :=
  nodup_partFold ms [] List.nodup_nil

/-- `ensure_state` never changes the state `stateOf` reads. -/
theorem stateOf_ensure (s : String → Option PState) (id : String) (p : Nat)
    (x : String) : stateOf (ensure_state s id p) x p = stateOf s x p := by
  unfold ensure_state stateOf
  dsimp only
  by_cases hx : x = id
  · subst hx
    rw [if_pos rfl]
    rfl
  · rw [if_neg hx]

/-- `ensure_state` at the ensured wrestler. -/
theorem ensure_state_self (s : String → Option PState) (id : String) (p : Nat) :
    ensure_state s id p id = some (stateOf s id p) := by
  unfold ensure_state
  rw [if_pos rfl]

/-- `ensure_state` away from the ensured wrestler. -/
theorem ensure_state_other (s : String → Option PState) (id : String) (p : Nat)
    (x : String) (h : x ≠ id) : ensure_state s id p x = s x := by
  unfold ensure_state
  rw [if_neg h]

/-- The match-loop `ensure_state` fold, read pointwise: participants get
their ensured state, everything else is untouched. -/
theorem wsOne_eq (p : Nat) (ms : List GMatch) :
    ∀ ws : String → Option PState,
      wsOne p ms ws = fun x =>
        if x ∈ participantsOf ms then some (stateOf ws x p) else ws x := by
  induction ms with
  | nil =>
    intro ws
    funext x
    show ws x = if x ∈ participantsOf ([] : List GMatch) then
      some (stateOf ws x p) else ws x
    rw [show participantsOf ([] : List GMatch) = [] from rfl,
      if_neg (List.not_mem_nil x)]
  | cons m t ih =>
    intro ws
    show wsOne p t (ensurePair p ws m) = _
    rw [ih]
    funext x
    by_cases hx : x ∈ participantsOf t
    · rw [if_pos hx, if_pos (by
        rw [mem_participantsOf] at hx ⊢
        obtain ⟨m', hm', h⟩ := hx
        exact ⟨m', List.mem_cons_of_mem m hm', h⟩)]
      unfold ensurePair
      rw [stateOf_ensure, stateOf_ensure]
    · rw [if_neg hx]
      by_cases hl : x = m.loser_id
      · subst hl
        rw [if_pos (by
          rw [mem_participantsOf]
          exact ⟨m, List.mem_cons_self m t, Or.inr rfl⟩)]
        unfold ensurePair
        rw [ensure_state_self, stateOf_ensure]
      · by_cases hw : x = m.winner_id
        · subst hw
          rw [if_pos (by
            rw [mem_participantsOf]
            exact ⟨m, List.mem_cons_self m t, Or.inl rfl⟩)]
          unfold ensurePair
          rw [ensure_state_other _ _ _ _ hl, ensure_state_self]
        · rw [if_neg (by
            rw [mem_participantsOf]
            rintro ⟨m', hm', h⟩
            rcases List.mem_cons.mp hm' with rfl | hm'
            · rcases h with h | h
              · exact hw h
              · exact hl h
            · exact hx (by rw [mem_participantsOf]; exact ⟨m', hm', h⟩))]
          unfold ensurePair
          rw [ensure_state_other _ _ _ _ hl, ensure_state_other _ _ _ _ hw]

/-- One snapshot-loop step, read pointwise. -/
theorem applySnapshotPass_eq (p : Nat) (acc : String → Option PState)
    (id : String) :
    applySnapshotPass p acc id = fun x =>
      if x = id then some (apply_inactivity (stateOf acc id p) p) else acc x := by
  funext x
  unfold applySnapshotPass
  by_cases hx : x = id
  · rw [if_pos hx, if_pos hx, stateOf_ensure]
  · rw [if_neg hx, if_neg hx, ensure_state_other _ _ _ _ hx]

/-- A snapshot-loop step leaves other wrestlers' states unchanged. -/
theorem stateOf_applySnapshotPass_other (p : Nat)
    (acc : String → Option PState) (id x : String) (h : ¬ x = id) :
    stateOf (applySnapshotPass p acc id) x p = stateOf acc x p := by
  unfold stateOf
  rw [applySnapshotPass_eq]
  dsimp only
  rw [if_neg h]

/-- The snapshot-loop fold over a duplicate-free participant list, read
pointwise: every participant's state gets the inactivity update once. -/
theorem snapshotFold_eq (p : Nat) :
    ∀ ps : List String, ps.Nodup → ∀ acc : String → Option PState,
      ps.foldl (applySnapshotPass p) acc = fun x =>
        if x ∈ ps then some (apply_inactivity (stateOf acc x p) p) else acc x := by
  intro ps
  induction ps with
  | nil =>
    intro _ acc
    funext x
    show acc x = _
    rw [if_neg (List.not_mem_nil x)]
  | cons id t ih =>
    intro hnd acc
    obtain ⟨hid, hnd'⟩ := List.nodup_cons.mp hnd
    rw [List.foldl_cons, ih hnd']
    funext x
    by_cases hx : x ∈ t
    · have hxid : ¬ x = id := fun hc => hid (hc ▸ hx)
      rw [if_pos hx, if_pos (List.mem_cons_of_mem id hx),
        stateOf_applySnapshotPass_other p acc id x hxid]
    · rw [if_neg hx, applySnapshotPass_eq]
      dsimp only
      by_cases hxi : x = id
      · subst hxi
        rw [if_pos rfl, if_pos (List.mem_cons_self x t)]
      · rw [if_neg hxi, if_neg (by
          intro hc
          rcases List.mem_cons.mp hc with h | h
          · exact hxi h
          · exact hx h)]

/-- `update_player` is invariant under a permutation of the pairing list:
the sums defining `v` and `delta` are permutation-invariant. -/
theorem update_player_perm (fuel : Nat) (snapshot : Snapshot)
    (l1 l2 : List (String × ℝ)) (opponents : String → Option Snapshot)
    (tau : ℝ) (h : List.Perm l1 l2) :
    update_player fuel snapshot l1 opponents tau =
      update_player fuel snapshot l2 opponents tau := by
  have hv : (l1.map (vContrib snapshot.mu opponents)).sum =
      (l2.map (vContrib snapshot.mu opponents)).sum :=
    (h.map (vContrib snapshot.mu opponents)).sum_eq
  have hd : (l1.map (dContrib snapshot.mu opponents)).sum =
      (l2.map (dContrib snapshot.mu opponents)).sum :=
    (h.map (dContrib snapshot.mu opponents)).sum_eq
  unfold update_player
  by_cases h1 : l1 = []
  · subst h1
    obtain rfl : l2 = [] := List.perm_nil.mp h.symm
    rfl
  · have h2 : l2 ≠ [] := fun hn => h1 (List.perm_nil.mp (hn ▸ h))
    rw [if_neg h1, if_neg h2]
    dsimp only
    rw [hv, hd]

end Rating

namespace Rating

/-- C5: within one period and weight class, the post-period state of every
wrestler is unchanged under any permutation of the period's matches (and
with it of the wrestler processing order): all updates read the same
pre-period snapshots, and the per-wrestler sums are permutation-invariant. -/
theorem C5_period_permutation_invariance (fuel : Nat) (tau : ℝ) (p : Nat)
    (ms1 ms2 : List GMatch) (hperm : List.Perm ms1 ms2)
    (ws : String → Option PState) (id : String) :
    processWeight fuel tau p ms1 ws id = processWeight fuel tau p ms2 ws id := by
  have hps : ∀ x, x ∈ participantsOf ms1 ↔ x ∈ participantsOf ms2 := by
    intro x
    rw [mem_participantsOf, mem_participantsOf]
    constructor
    · rintro ⟨m, hm, h⟩
      exact ⟨m, hperm.mem_iff.mp hm, h⟩
    · rintro ⟨m, hm, h⟩
      exact ⟨m, hperm.mem_iff.mpr hm, h⟩
  have hws1 : wsOne p ms1 ws = wsOne p ms2 ws := by
    rw [wsOne_eq, wsOne_eq]
    funext x
    by_cases hx : x ∈ participantsOf ms1
    · rw [if_pos hx, if_pos ((hps x).mp hx)]
    · rw [if_neg hx, if_neg (fun hc => hx ((hps x).mpr hc))]
  have hws2 : wsTwo p ms1 ws = wsTwo p ms2 ws := by
    unfold wsTwo
    rw [snapshotFold_eq p _ (nodup_participantsOf ms1),
      snapshotFold_eq p _ (nodup_participantsOf ms2), hws1]
    funext x
    by_cases hx : x ∈ participantsOf ms1
    · rw [if_pos hx, if_pos ((hps x).mp hx)]
    · rw [if_neg hx, if_neg (fun hc => hx ((hps x).mpr hc))]
  have hsn : snapsOf p ms1 ws = snapsOf p ms2 ws := by
    unfold snapsOf
    rw [hws2]
    funext x
    by_cases hx : x ∈ participantsOf ms1
    · rw [if_pos hx, if_pos ((hps x).mp hx)]
    · rw [if_neg hx, if_neg (fun hc => hx ((hps x).mpr hc))]
  have hpp : List.Perm (pairingsOf ms1 id) (pairingsOf ms2 id) :=
    hperm.flatMap_right (pairContrib id)
  unfold processWeight
  rw [hws2, hsn, update_player_perm fuel _ _ _ _ tau hpp, hpp.length_eq]
  by_cases hid : id ∈ participantsOf ms1
  · rw [if_pos hid, if_pos ((hps id).mp hid)]
  · rw [if_neg hid, if_neg (fun hc => hid ((hps id).mpr hc))]

/-- C5 witness: swapping two matches of a period leaves the processed
states unchanged. -/
theorem C5_period_permutation_invariance_witness :
    List.Perm [(⟨"a", "b"⟩ : GMatch), ⟨"c", "d"⟩]
        [(⟨"c", "d"⟩ : GMatch), ⟨"a", "b"⟩] ∧
      processWeight 1 0.5 0 [(⟨"a", "b"⟩ : GMatch), ⟨"c", "d"⟩]
          (fun _ => none) "a" =
        processWeight 1 0.5 0 [(⟨"c", "d"⟩ : GMatch), ⟨"a", "b"⟩]
          (fun _ => none) "a" :=
  ⟨List.Perm.swap _ _ _,
    C5_period_permutation_invariance 1 0.5 0 _ _ (List.Perm.swap _ _ _)
      (fun _ => none) "a"⟩

end Rating
